import Mathlib

/-!
Verification development for the recipebook quantity-normalization and
aggregation engine.

The definitions below are a shallow embedding of the TypeScript source:
the quantity parser, unit classifier and display formatter from
src/utils/measurements.ts and the aggregator (generateGroceryList,
normalizeAisle, normalizeIngredientName) from src/app/recipes/page.tsx.

Modelling conventions:
- strings are Lean String values, processed as lists of characters;
- JavaScript numbers are modelled by the rationals, with the decimal
  literals of the source taken exactly;
- Math.round is floor at x + 1/2, which agrees with JavaScript for all
  inputs; Number.EPSILON is 2 to the power -52;
- JavaScript objects, Map and Set are modelled as insertion-ordered
  association lists with update-in-place semantics;
- String.prototype.toLowerCase and toUpperCase are modelled on the ASCII
  letters only (the case table for other code points never changes the
  observable results of this engine, since non-ASCII letters match no
  alias table, no qualifier word and no numeric token);
- the comparator based on localeCompare is modelled as lexicographic
  code-point order.
-/

/- The core rational-number operations are shipped irreducible, which
blocks evaluation of concrete instances by the decide tactic; restore
the default reducibility so that concrete runs of the engine reduce. -/
set_option allowUnsafeReducibility true
attribute [semireducible] Rat.add Rat.sub Rat.neg Rat.mul Rat.inv Rat.div
attribute [semireducible] Rat.normalize Rat.maybeNormalize mkRat Rat.blt
attribute [semireducible] Rat.floor Rat.ofScientific

namespace Recipebook

/-! ### JavaScript character classes and basic string helpers -/

/-- The character class matched by the regular expression \s in
JavaScript: ASCII whitespace, NBSP, the Unicode space separators and the
line separators, and the BOM. -/
def jsIsSpace (c : Char) : Bool :=
  c == ' ' || c == '\t' || c == '\n' || c.toNat == 0x0B || c.toNat == 0x0C ||
  c == '\r' || c.toNat == 0xA0 || c.toNat == 0x1680 ||
  (0x2000 ≤ c.toNat && c.toNat ≤ 0x200A) ||
  c.toNat == 0x2028 || c.toNat == 0x2029 || c.toNat == 0x202F ||
  c.toNat == 0x205F || c.toNat == 0x3000 || c.toNat == 0xFEFF

/-- The character class matched by \w in JavaScript. -/
def isWordChar (c : Char) : Bool :=
  (97 ≤ c.toNat && c.toNat ≤ 122) || (65 ≤ c.toNat && c.toNat ≤ 90) ||
  c.isDigit || c == '_'

/-- String.prototype.trim, on character lists. -/
def trimChars (l : List Char) : List Char :=
  ((l.dropWhile jsIsSpace).reverse.dropWhile jsIsSpace).reverse

/-- toLowerCase on one character, restricted to the ASCII letters. -/
def jsToLower (c : Char) : Char :=
  match c with
  | 'A' => 'a' | 'B' => 'b' | 'C' => 'c' | 'D' => 'd' | 'E' => 'e'
  | 'F' => 'f' | 'G' => 'g' | 'H' => 'h' | 'I' => 'i' | 'J' => 'j'
  | 'K' => 'k' | 'L' => 'l' | 'M' => 'm' | 'N' => 'n' | 'O' => 'o'
  | 'P' => 'p' | 'Q' => 'q' | 'R' => 'r' | 'S' => 's' | 'T' => 't'
  | 'U' => 'u' | 'V' => 'v' | 'W' => 'w' | 'X' => 'x' | 'Y' => 'y'
  | 'Z' => 'z'
  | c => c

/-- toUpperCase on one character, restricted to the ASCII letters. -/
def jsToUpper (c : Char) : Char :=
  match c with
  | 'a' => 'A' | 'b' => 'B' | 'c' => 'C' | 'd' => 'D' | 'e' => 'E'
  | 'f' => 'F' | 'g' => 'G' | 'h' => 'H' | 'i' => 'I' | 'j' => 'J'
  | 'k' => 'K' | 'l' => 'L' | 'm' => 'M' | 'n' => 'N' | 'o' => 'O'
  | 'p' => 'P' | 'q' => 'Q' | 'r' => 'R' | 's' => 'S' | 't' => 'T'
  | 'u' => 'U' | 'v' => 'V' | 'w' => 'W' | 'x' => 'X' | 'y' => 'Y'
  | 'z' => 'Z'
  | c => c

def lowerChars (l : List Char) : List Char := l.map jsToLower

/-- Numeric value of an ASCII digit character. -/
def digitVal (c : Char) : ℕ := c.toNat - 48

/-- Value of a string of ASCII digits, as Number would read it. -/
def natOfDigits (l : List Char) : ℕ :=
  l.foldl (fun a c => 10 * a + digitVal c) 0

/-- Concatenation of a list of character lists. -/
def concatAll (l : List (List Char)) : List Char := l.foldr (· ++ ·) []

/-- If l starts with the literal pattern, return the remainder. -/
def dropSeq : List Char → List Char → Option (List Char)
  | [], l => some l
  | _ :: _, [] => none
  | p :: ps, c :: cs => if c == p then dropSeq ps cs else none

/-! ### The quantity parser (parseQuantityToNumber) -/

/-- The UNICODE_FRACTIONS table of the source, in its insertion order. -/
def UNICODE_FRACTIONS : List (Char × List Char) :=
  [('¼', "1/4".toList), ('½', "1/2".toList), ('¾', "3/4".toList),
   ('⅐', "1/7".toList), ('⅑', "1/9".toList), ('⅒', "1/10".toList),
   ('⅓', "1/3".toList), ('⅔', "2/3".toList), ('⅕', "1/5".toList),
   ('⅖', "2/5".toList), ('⅗', "3/5".toList), ('⅘', "4/5".toList),
   ('⅙', "1/6".toList), ('⅚', "5/6".toList), ('⅛', "1/8".toList),
   ('⅜', "3/8".toList), ('⅝', "5/8".toList), ('⅞', "7/8".toList)]

/-- One global pass of the replacement of a digit followed by the vulgar
fraction u by the digit, a space and the ASCII fraction. -/
def replaceAttachedFrac (u : Char) (ascii : List Char) : List Char → List Char
  | [] => []
  | [c] => [c]
  | c :: d :: rest =>
    if c.isDigit && d == u then
      c :: ' ' :: (ascii ++ replaceAttachedFrac u ascii rest)
    else
      c :: replaceAttachedFrac u ascii (d :: rest)

/-- One global pass replacing every occurrence of the character u by the
ASCII fraction. -/
def replaceAllChar (u : Char) (ascii : List Char) (l : List Char) : List Char :=
  concatAll (l.map (fun c => if c == u then ascii else [c]))

/-- The unicode-fraction normalization loop of parseQuantityToNumber. -/
def normalizeFractions (l : List Char) : List Char :=
  UNICODE_FRACTIONS.foldl
    (fun s p => replaceAllChar p.1 p.2 (replaceAttachedFrac p.1 p.2 s)) l

/-- The replacement of the qualifier symbols by spaces. -/
def stripApproxSymbols (l : List Char) : List Char :=
  l.map (fun c => if c == '~' || c == '≈' then ' ' else c)

/-- Whether the next character is absent or a non-word character: the
word-boundary test after a match that ends in a word character. -/
def noWordAfter (l : List Char) : Bool :=
  match l with
  | [] => true
  | c :: _ => !isWordChar c

/-- Whether the next character is a word character: the word-boundary
test after a match that ends in a non-word character. -/
def wordAfter (l : List Char) : Bool :=
  match l with
  | [] => false
  | c :: _ => isWordChar c

/-- Match one fully spelled qualifier word followed by a word boundary;
returns the last matched character and the remainder. -/
def matchLetterWord (w : List Char) (lastC : Char) (l : List Char) :
    Option (Char × List Char) :=
  match dropSeq w l with
  | some r => if noWordAfter r then some (lastC, r) else none
  | none => none

/-- Match the alternative approx with an optional trailing period,
followed by a word boundary; the greedy attempt with the period is tried
first and backtracks to the bare word, exactly as the regex engine does. -/
def matchApprox (l : List Char) : Option (Char × List Char) :=
  match dropSeq "approx".toList l with
  | none => none
  | some r =>
    match r with
    | '.' :: r2 => if wordAfter r2 then some ('.', r2) else some ('x', '.' :: r2)
    | _ => if noWordAfter r then some ('x', r) else none

/-- The qualifier-word alternation, tried left to right. -/
def tryQualifier (l : List Char) : Option (Char × List Char) :=
  (matchLetterWord "about".toList 't' l).orElse fun _ =>
  (matchApprox l).orElse fun _ =>
  (matchLetterWord "approximately".toList 'y' l).orElse fun _ =>
  (matchLetterWord "around".toList 'd' l).orElse fun _ =>
  matchLetterWord "roughly".toList 'y' l

/-- Scanner for the global qualifier-word replacement. The Boolean
records whether the previous source character was a word character, for
the leading word-boundary test; each match is replaced by one space and
scanning resumes after the matched source text. The fuel is an upper
bound on the number of scanned positions; every match consumes at least
one character, so fuel equal to the length of the list is enough. -/
def stripQualifierWordsAux : ℕ → Bool → List Char → List Char
  | _, _, [] => []
  | 0, _, l => l
  | fuel + 1, prevWord, c :: rest =>
    if prevWord != isWordChar c then
      match tryQualifier (c :: rest) with
      | some (lastC, r) => ' ' :: stripQualifierWordsAux fuel (isWordChar lastC) r
      | none => c :: stripQualifierWordsAux fuel (isWordChar c) rest
    else
      c :: stripQualifierWordsAux fuel (isWordChar c) rest

def stripQualifierWords (l : List Char) : List Char :=
  stripQualifierWordsAux l.length false l

/-- Match a decimal numeral, digits with an optional fractional part,
greedily; returns the matched characters and the remainder. -/
def matchNumber (l : List Char) : Option (List Char × List Char) :=
  let d := l.takeWhile Char.isDigit
  let r := l.dropWhile Char.isDigit
  if d.isEmpty then none
  else
    match r with
    | '.' :: r2 =>
      let d2 := r2.takeWhile Char.isDigit
      let r3 := r2.dropWhile Char.isDigit
      if d2.isEmpty then some (d, r) else some (d ++ '.' :: d2, r3)
    | _ => some (d, r)

/-- Match a numeric range: a numeral, optional spaces, a hyphen or an
en dash, optional spaces, a numeral. Returns the replacement (the first
numeral) and the remainder after the whole match. -/
def matchRange (l : List Char) : Option (List Char × List Char) :=
  match matchNumber l with
  | none => none
  | some (n1, r1) =>
    match r1.dropWhile jsIsSpace with
    | c :: r2 =>
      if c == '-' || c == '–' then
        match matchNumber (r2.dropWhile jsIsSpace) with
        | some (_, r3) => some (n1, r3)
        | none => none
      else none
    | [] => none

/-- Scanner for the global range replacement; fuel as above. -/
def collapseRangesAux : ℕ → List Char → List Char
  | _, [] => []
  | 0, l => l
  | fuel + 1, c :: rest =>
    match matchRange (c :: rest) with
    | some (rep, r) => rep ++ collapseRangesAux fuel r
    | none => c :: collapseRangesAux fuel rest

def collapseRanges (l : List Char) : List Char := collapseRangesAux l.length l

/-- Split at whitespace. Runs of whitespace produce empty groups, which
the token pipeline filters out afterwards, so the final token list agrees
with split at the regular expression for one or more spaces. -/
def splitWsGroups (l : List Char) : List (List Char) :=
  l.foldr
    (fun c acc =>
      if jsIsSpace c then [] :: acc
      else
        match acc with
        | [] => [[c]]
        | g :: gs => (c :: g) :: gs)
    []

/-- Strip every character except digits, the period and the slash. -/
def stripTokenChars (t : List Char) : List Char :=
  t.filter (fun c => c.isDigit || c == '.' || c == '/')

/-- parseFractionToken of the source: an anchored digits/digits match
with optional spaces around the slash, refused when the denominator is
zero. -/
def parseFractionToken (t : List Char) : Option ℚ :=
  let d1 := t.takeWhile Char.isDigit
  let r := t.dropWhile Char.isDigit
  if d1.isEmpty then none
  else
    match r.dropWhile jsIsSpace with
    | '/' :: r2 =>
      let r2b := r2.dropWhile jsIsSpace
      let d2 := r2b.takeWhile Char.isDigit
      let r3 := r2b.dropWhile Char.isDigit
      if d2.isEmpty || !r3.isEmpty then none
      else
        let den := natOfDigits d2
        if den == 0 then none else some ((natOfDigits d1 : ℚ) / (den : ℚ))
    | _ => none

/-- Number.parseFloat on a stripped token. Tokens contain only digits,
periods and slashes, so the sign, exponent and Infinity forms of
parseFloat are unreachable and the longest numeric prefix is either
digits with an optional fractional part or a fractional part alone. -/
def parseFloatQ (t : List Char) : Option ℚ :=
  let d1 := t.takeWhile Char.isDigit
  let r := t.dropWhile Char.isDigit
  if d1.isEmpty then
    match t with
    | '.' :: r2 =>
      let d2 := r2.takeWhile Char.isDigit
      if d2.isEmpty then none
      else some ((natOfDigits d2 : ℚ) / 10 ^ d2.length)
    | _ => none
  else
    match r with
    | '.' :: r2 =>
      let d2 := r2.takeWhile Char.isDigit
      some ((natOfDigits d1 : ℚ) + (natOfDigits d2 : ℚ) / 10 ^ d2.length)
    | _ => some (natOfDigits d1 : ℚ)

/-- Contribution of one token to the sum: a fraction when the anchored
fraction pattern matches with a non-zero denominator, otherwise the
parseFloat value, otherwise zero. -/
def tokenValue (t : List Char) : ℚ :=
  match parseFractionToken t with
  | some f => f
  | none =>
    match parseFloatQ t with
    | some n => n
    | none => 0

/-- The whole parseQuantityToNumber pipeline on a character list, after
the initial falsiness check. -/
def parseQuantityChars (l : List Char) : ℚ :=
  let s0 := lowerChars (trimChars l)
  if s0.isEmpty then 0
  else
    let s1 := normalizeFractions s0
    let s2 := stripApproxSymbols s1
    let s3 := stripQualifierWords s2
    let s4 := collapseRanges s3
    let tokens := ((splitWsGroups s4).map stripTokenChars).filter (fun t => !t.isEmpty)
    tokens.foldl (fun acc t => acc + tokenValue t) 0

/-- parseQuantityToNumber of the source. A null or undefined input is
out of scope here since the ingredient fields are strings; the falsy
check on a string input is the emptiness check. -/
def parseQuantityToNumber (input : String) : ℚ :=
  if input = "" then 0 else parseQuantityChars input.toList

/-! ### The unit classifier (normalizeUnitString, getUnitInfo) -/

/-- Squeeze runs of spaces to a single space; applied after mapping every
whitespace character to a space, this is the global replacement of runs
of whitespace by one space. -/
def squeezeSpaces : List Char → List Char
  | [] => []
  | [c] => [c]
  | a :: b :: rest =>
    if a == ' ' && b == ' ' then squeezeSpaces (b :: rest)
    else a :: squeezeSpaces (b :: rest)

/-- The global replacement of runs of whitespace by a single space. -/
def collapseWs (l : List Char) : List Char :=
  squeezeSpaces (l.map (fun c => if jsIsSpace c then ' ' else c))

/-- Remove one final period, if present. -/
def stripTrailingDot (l : List Char) : List Char :=
  match l.reverse with
  | '.' :: r => r.reverse
  | _ => l

def normalizeUnitChars (l : List Char) : List Char :=
  stripTrailingDot (collapseWs (trimChars (lowerChars l)))

/-- normalizeUnitString of the source: lowercase, trim, collapse internal
whitespace, strip one trailing period. -/
def normalizeUnitString (raw : String) : String :=
  ⟨normalizeUnitChars raw.toList⟩

inductive MeasurementKind where
  | count
  | volume
  | weight
  | unknown
deriving DecidableEq, Repr

/-- The UnitInfo record of the source. The base unit and the factor are
null exactly for the unknown family, hence the Option fields. -/
structure UnitInfo where
  kind : MeasurementKind
  canonicalUnit : String
  prettyUnit : String
  baseUnit : Option String
  toBaseFactor : Option ℚ
deriving DecidableEq, Repr

def tspMl : ℚ := 4.92892159375
def tbspMl : ℚ := 14.78676478125
def cupMl : ℚ := 236.5882365
def flozMl : ℚ := 29.5735295625
def ptMl : ℚ := 473.176473
def qtMl : ℚ := 946.352946
def galMl : ℚ := 3785.411784
def ozG : ℚ := 28.349523125
def lbG : ℚ := 453.59237

def countAliases : List String := ["each", "ea", "pc", "pcs", "piece", "pieces"]

/-- The volumeAliases table of getUnitInfo. -/
def volumeAlias? (u : String) : Option (String × ℚ) :=
  match u with
  | "tsp" => some ("tsp", tspMl)
  | "teaspoon" => some ("tsp", tspMl)
  | "teaspoons" => some ("tsp", tspMl)
  | "tbsp" => some ("tbsp", tbspMl)
  | "tablespoon" => some ("tbsp", tbspMl)
  | "tablespoons" => some ("tbsp", tbspMl)
  | "cup" => some ("cup", cupMl)
  | "cups" => some ("cup", cupMl)
  | "ml" => some ("ml", 1)
  | "milliliter" => some ("ml", 1)
  | "milliliters" => some ("ml", 1)
  | "l" => some ("l", 1000)
  | "liter" => some ("l", 1000)
  | "liters" => some ("l", 1000)
  | "litre" => some ("l", 1000)
  | "litres" => some ("l", 1000)
  | "fl oz" => some ("fl oz", flozMl)
  | "floz" => some ("fl oz", flozMl)
  | "fluid ounce" => some ("fl oz", flozMl)
  | "fluid ounces" => some ("fl oz", flozMl)
  | "pt" => some ("pt", ptMl)
  | "pint" => some ("pt", ptMl)
  | "pints" => some ("pt", ptMl)
  | "qt" => some ("qt", qtMl)
  | "quart" => some ("qt", qtMl)
  | "quarts" => some ("qt", qtMl)
  | "gal" => some ("gal", galMl)
  | "gallon" => some ("gal", galMl)
  | "gallons" => some ("gal", galMl)
  | _ => none

/-- The weightAliases table of getUnitInfo. -/
def weightAlias? (u : String) : Option (String × ℚ) :=
  match u with
  | "g" => some ("g", 1)
  | "gram" => some ("g", 1)
  | "grams" => some ("g", 1)
  | "kg" => some ("kg", 1000)
  | "kilogram" => some ("kg", 1000)
  | "kilograms" => some ("kg", 1000)
  | "oz" => some ("oz", ozG)
  | "ounce" => some ("oz", ozG)
  | "ounces" => some ("oz", ozG)
  | "lb" => some ("lb", lbG)
  | "lbs" => some ("lb", lbG)
  | "pound" => some ("lb", lbG)
  | "pounds" => some ("lb", lbG)
  | _ => none

/-- The pretty-unit selection for the volume branch: liters, milliliters,
teaspoons and tablespoons keep their canonical spelling, everything else
renders as cup. -/
def volumePretty (c : String) : String :=
  if c = "l" then "l"
  else if c = "ml" then "ml"
  else if c = "tsp" then "tsp"
  else if c = "tbsp" then "tbsp"
  else "cup"

/-- getUnitInfo of the source. For the unknown family the pretty unit is
the raw input string when it is non-empty, the normalized string
otherwise. -/
def getUnitInfo (rawUnit : String) : UnitInfo :=
  let u := normalizeUnitString rawUnit
  if u = "" then ⟨.count, "", "", some "each", some 1⟩
  else if countAliases.contains u then ⟨.count, "each", "each", some "each", some 1⟩
  else
    match volumeAlias? u with
    | some cf => ⟨.volume, cf.1, volumePretty cf.1, some "ml", some cf.2⟩
    | none =>
      match weightAlias? u with
      | some cf => ⟨.weight, cf.1, cf.1, some "g", some cf.2⟩
      | none => ⟨.unknown, u, if rawUnit = "" then u else rawUnit, none, none⟩

/-! ### Display formatting (roundForDisplay, formatVolumeFromMl,
formatWeightFromG) -/

/-- Number.EPSILON. -/
def jsEpsilon : ℚ := 1 / 2 ^ 52

/-- Math.round: the floor of x + 1/2, for every real argument. -/
def mathRound (x : ℚ) : ℤ := Int.floor (x + 1 / 2)

/-- roundForDisplay of the source: round (n + epsilon) to two decimals. -/
def roundForDisplay (n : ℚ) : ℚ :=
  (mathRound ((n + jsEpsilon) * 100) : ℚ) / 100

/-- formatVolumeFromMl of the source. The preferred canonical units are
the Set of canonical units recorded by the aggregation, modelled as a
list with membership testing. -/
def formatVolumeFromMl (totalMl : ℚ) (preferredCanonicalUnits : List String) :
    ℚ × String :=
  let preferCup := preferredCanonicalUnits.contains "cup"
  let preferTbsp := preferredCanonicalUnits.contains "tbsp"
  let preferTsp := preferredCanonicalUnits.contains "tsp"
  let preferL := preferredCanonicalUnits.contains "l"
  let preferMl := preferredCanonicalUnits.contains "ml"
  let u : String :=
    if preferL = true ∨ totalMl ≥ 1000 then "l"
    else if preferCup = true ∨ totalMl ≥ cupMl / 4 then "cup"
    else if preferTbsp = true ∨ totalMl ≥ tbspMl then "tbsp"
    else if preferTsp = true ∨ totalMl ≥ tspMl then "tsp"
    else if preferMl = true then "ml" else "tsp"
  let quantity :=
    if u = "l" then totalMl / 1000
    else if u = "ml" then totalMl
    else if u = "cup" then totalMl / cupMl
    else if u = "tbsp" then totalMl / tbspMl
    else totalMl / tspMl
  (roundForDisplay quantity, u)

/-- formatWeightFromG of the source. -/
def formatWeightFromG (totalG : ℚ) (preferredCanonicalUnits : List String) :
    ℚ × String :=
  let preferLb := preferredCanonicalUnits.contains "lb"
  let preferOz := preferredCanonicalUnits.contains "oz"
  let preferKg := preferredCanonicalUnits.contains "kg"
  let u : String :=
    if preferKg = true ∨ totalG ≥ 1000 then "kg"
    else if preferLb = true ∨ totalG ≥ lbG then "lb"
    else if preferOz = true ∨ totalG ≥ ozG then "oz"
    else "g"
  let quantity :=
    if u = "kg" then totalG / 1000
    else if u = "lb" then totalG / lbG
    else if u = "oz" then totalG / ozG
    else totalG
  (roundForDisplay quantity, u)

/-! ### The aggregator (normalizeAisle, normalizeIngredientName,
generateGroceryList) -/

structure Ingredient where
  name : String
  quantity : String
  unit : String
  aisle : String
deriving DecidableEq, Repr

structure Recipe where
  id : ℤ
  title : String
  ingredients : List Ingredient
deriving DecidableEq, Repr

/-- Generic scanner for a global regular-expression replacement with a
fixed replacement text: at every position try the matcher; on a match
emit the replacement and resume after the matched text, otherwise copy
one character. Fuel bounds the number of scanned positions; every
matcher used below consumes at least one character, so fuel equal to the
length of the list is enough. -/
def scanReplace (m : List Char → Option (List Char)) (rep : List Char) :
    ℕ → List Char → List Char
  | _, [] => []
  | 0, l => l
  | fuel + 1, c :: rest =>
    match m (c :: rest) with
    | some r => rep ++ scanReplace m rep fuel r
    | none => c :: scanReplace m rep fuel rest

/-- Match whitespace, the word and, whitespace. -/
def matchAndSep (l : List Char) : Option (List Char) :=
  let sp1 := l.takeWhile jsIsSpace
  let r1 := l.dropWhile jsIsSpace
  if sp1.isEmpty then none
  else
    match dropSeq "and".toList r1 with
    | none => none
    | some r2 =>
      let sp2 := r2.takeWhile jsIsSpace
      let r3 := r2.dropWhile jsIsSpace
      if sp2.isEmpty then none else some r3

/-- Match a list of literal words separated by runs of whitespace. -/
def matchSpacedPhrase : List (List Char) → List Char → Option (List Char)
  | [], l => some l
  | [w], l => dropSeq w l
  | w :: ws, l =>
    match dropSeq w l with
    | none => none
    | some r =>
      let sp := r.takeWhile jsIsSpace
      let r2 := r.dropWhile jsIsSpace
      if sp.isEmpty then none else matchSpacedPhrase ws r2

/-- Global replacement of a literal pattern. -/
def replaceLit (pat rep : String) (l : List Char) : List Char :=
  scanReplace (dropSeq pat.toList) rep.toList l.length l

/-- Global replacement of a three-word pattern with whitespace runs
between the words. -/
def replaceSpaced3 (w1 w2 w3 rep : String) (l : List Char) : List Char :=
  scanReplace (matchSpacedPhrase [w1.toList, w2.toList, w3.toList])
    rep.toList l.length l

/-- Split at single spaces, keeping empty fields, as the split method
does with a one-character separator string. -/
def splitOnSpace (l : List Char) : List (List Char) :=
  l.foldr
    (fun c acc =>
      if c == ' ' then [] :: acc
      else
        match acc with
        | [] => [[c]]
        | g :: gs => (c :: g) :: gs)
    [[]]

/-- Capitalize the first character of a word. -/
def capitalizeWord (w : List Char) : List Char :=
  match w with
  | [] => []
  | c :: rest => jsToUpper c :: rest

/-- Join words with single spaces. -/
def joinSpace (ws : List (List Char)) : List Char :=
  match ws with
  | [] => []
  | w :: rest => w ++ concatAll (rest.map (fun x => ' ' :: x))

/-- normalizeAisle of the source. -/
def normalizeAisle (aisle : String) : String :=
  if aisle = "" then "Other"
  else
    let s0 := trimChars (lowerChars aisle.toList)
    let s1 := scanReplace matchAndSep " & ".toList s0.length s0
    let s2 := concatAll (s1.map (fun c => if c == '/' then " & ".toList else [c]))
    let s3 := replaceSpaced3 "dairy" "&" "eggs" "Dairy & Eggs" s2
    let s4 := replaceLit "produce" "Produce" s3
    let s5 := replaceSpaced3 "meat" "&" "seafood" "Meat & Seafood" s4
    let s6 := replaceLit "pantry" "Pantry" s5
    let s7 := replaceLit "bakery" "Bakery" s6
    let s8 := replaceLit "frozen" "Frozen" s7
    let s9 := replaceLit "beverages" "Beverages" s8
    let s10 := replaceLit "spices" "Spices" s9
    let s11 := replaceLit "baking" "Baking" s10
    ⟨joinSpace ((splitOnSpace s11).map capitalizeWord)⟩

/-- normalizeIngredientName of the source: lowercase, trim, hyphens to
spaces, collapse whitespace runs. -/
def normalizeIngredientName (name : String) : String :=
  if name = "" then ""
  else
    ⟨collapseWs ((trimChars (lowerChars name.toList)).map
      (fun c => if c == '-' then ' ' else c))⟩

/-- String.prototype.trim on a String. -/
def jsTrim (s : String) : String := ⟨trimChars s.toList⟩

/-- The per-bucket accumulator record Agg of generateGroceryList. The
Set of sources and the Sets of preferred units are insertion-ordered
lists without duplicates; the Map of unknown totals is an
insertion-ordered association list. -/
structure Agg where
  displayName : String
  sources : List String
  countTotal : ℚ
  volumeMlTotal : ℚ
  weightGTotal : ℚ
  preferredVolumeUnits : List String
  preferredWeightUnits : List String
  unknownTotals : List (String × ℚ)
deriving DecidableEq, Repr

/-- Lookup in an insertion-ordered association list. -/
def alGet? {α : Type} (k : String) : List (String × α) → Option α
  | [] => none
  | p :: rest => if k = p.1 then some p.2 else alGet? k rest

/-- Insertion-ordered association-list update: replace the value of an
existing key in place, or append a new entry, as assignment to an object
property or Map.set does. -/
def alSet {α : Type} (k : String) (v : α) : List (String × α) → List (String × α)
  | [] => [(k, v)]
  | p :: rest => if k = p.1 then (k, v) :: rest else p :: alSet k v rest

/-- Set.add: append if not already present. -/
def addSet (x : String) (l : List String) : List String :=
  if l.contains x then l else l ++ [x]

/-- The fresh accumulator created for a new (aisle, name) bucket. -/
def freshAgg (name : String) : Agg :=
  { displayName := jsTrim name, sources := [], countTotal := 0,
    volumeMlTotal := 0, weightGTotal := 0, preferredVolumeUnits := [],
    preferredWeightUnits := [], unknownTotals := [] }

/-- The family dispatch of one ingredient line into a bucket. For the
volume and weight families the conversion factor is always present (see
getUnitInfo), so the default of the Option extraction is never used. The
unknown key is the pretty unit; appending the empty-string default of
the source is the identity on strings. -/
def applyUnit (info : UnitInfo) (qtyNum : ℚ) (agg : Agg) : Agg :=
  match info.kind with
  | .count => { agg with countTotal := agg.countTotal + qtyNum }
  | .volume =>
    { agg with
      volumeMlTotal := agg.volumeMlTotal + qtyNum * info.toBaseFactor.getD 0,
      preferredVolumeUnits := addSet info.canonicalUnit agg.preferredVolumeUnits }
  | .weight =>
    { agg with
      weightGTotal := agg.weightGTotal + qtyNum * info.toBaseFactor.getD 0,
      preferredWeightUnits := addSet info.canonicalUnit agg.preferredWeightUnits }
  | .unknown =>
    let key := info.prettyUnit
    let prev := (alGet? key agg.unknownTotals).getD 0
    { agg with unknownTotals := alSet key (prev + qtyNum) agg.unknownTotals }

/-- The accumulator map: aisle name to (name key to bucket). -/
abbrev AggMap : Type := List (String × List (String × Agg))

/-- Recording of one line into a bucket before the family dispatch: the
recipe title joins the source set, and an empty display name is replaced
by the trimmed raw name. -/
def bumpBucket (title : String) (name : String) (agg0 : Agg) : Agg :=
  { agg0 with
    sources := addSet title agg0.sources,
    displayName := if agg0.displayName = "" then jsTrim name
                   else agg0.displayName }

/-- Processing of one ingredient line of one recipe, the body of the
inner forEach of generateGroceryList. -/
def processIngredient (title : String) (acc : AggMap) (ing : Ingredient) : AggMap :=
  let aisle := normalizeAisle ing.aisle
  let nameKey := normalizeIngredientName ing.name
  if nameKey = "" then acc
  else
    let qtyNum := parseQuantityToNumber ing.quantity
    let info := getUnitInfo ing.unit
    let byName := (alGet? aisle acc).getD []
    let agg0 := (alGet? nameKey byName).getD (freshAgg ing.name)
    alSet aisle (alSet nameKey (applyUnit info qtyNum (bumpBucket title ing.name agg0)) byName) acc

/-- The accumulation phase of generateGroceryList: the selected recipes
in order, their ingredient lines in order. -/
def buildAggMap (recipes : List Recipe) (selectedRecipes : List ℤ) : AggMap :=
  let selected := recipes.filter (fun r => selectedRecipes.contains r.id)
  selected.foldl
    (fun acc r => r.ingredients.foldl (processIngredient r.title) acc) []

/-- The output row of the grocery list. -/
structure DisplayRow where
  quantity : ℚ
  unit : String
  aisle : String
  name : String
  sources : List String
deriving DecidableEq, Repr

/-- Lexicographic code-point comparison of character lists, modelling
the default behaviour of the localeCompare comparator. -/
def charListLe : List Char → List Char → Bool
  | [], _ => true
  | _ :: _, [] => false
  | a :: as, b :: bs => if a == b then charListLe as bs else decide (a < b)

/-- Stable insertion into a sorted list of strings. -/
def insertStr (s : String) : List String → List String
  | [] => [s]
  | t :: rest => if charListLe s.toList t.toList then s :: t :: rest
                 else t :: insertStr s rest

/-- Array.prototype.sort with the string comparator. -/
def sortStrings (l : List String) : List String := l.foldr insertStr []

/-- Stable insertion into a list of entries sorted by key. -/
def insertByKey {α : Type} (p : String × α) :
    List (String × α) → List (String × α)
  | [] => [p]
  | q :: rest => if charListLe p.1.toList q.1.toList then p :: q :: rest
                 else q :: insertByKey p rest

/-- Sort of the bucket entries by name key. -/
def sortByKey {α : Type} (l : List (String × α)) : List (String × α) :=
  l.foldr insertByKey []

/-- The display rows emitted for one (aisle, name) bucket, with their
keys, in emission order: count, volume, weight, then the unknown labels
in insertion order. The count, volume and weight rows are guarded by the
truthiness tests of the source; the unknown rows are not. -/
def emitName (aisle nameKey : String) (agg : Agg) : List (String × DisplayRow) :=
  let sources := sortStrings agg.sources
  let displayName := if agg.displayName = "" then nameKey else agg.displayName
  (if agg.countTotal ≠ 0 then
    [(nameKey ++ "|count",
      ⟨agg.countTotal, "", aisle, displayName, sources⟩)]
   else []) ++
  (if agg.volumeMlTotal ≠ 0 then
    [(nameKey ++ "|volume",
      ⟨(formatVolumeFromMl agg.volumeMlTotal agg.preferredVolumeUnits).1,
       (formatVolumeFromMl agg.volumeMlTotal agg.preferredVolumeUnits).2,
       aisle, displayName, sources⟩)]
   else []) ++
  (if agg.weightGTotal ≠ 0 then
    [(nameKey ++ "|weight",
      ⟨(formatWeightFromG agg.weightGTotal agg.preferredWeightUnits).1,
       (formatWeightFromG agg.weightGTotal agg.preferredWeightUnits).2,
       aisle, displayName, sources⟩)]
   else []) ++
  agg.unknownTotals.map (fun p =>
    (nameKey ++ "|unknown|" ++ (if p.1 = "" then "unitless" else p.1),
     ⟨p.2, p.1, aisle, displayName, sources⟩))

/-- The per-aisle output map: the buckets sorted by name key, their rows
inserted in emission order. -/
def aisleRows (aisle : String) (byName : List (String × Agg)) :
    List (String × DisplayRow) :=
  (sortByKey byName).foldl
    (fun m p => (emitName aisle p.1 p.2).foldl (fun m2 kv => alSet kv.1 kv.2 m2) m)
    []

/-- generateGroceryList of the source: accumulate, then convert each
aisle of the accumulator, in insertion order, into its row map. -/
def generateGroceryList (recipes : List Recipe) (selectedRecipes : List ℤ) :
    List (String × List (String × DisplayRow)) :=
  (buildAggMap recipes selectedRecipes).foldl
    (fun combined p => alSet p.1 (aisleRows p.1 p.2) combined) []

/-! ### Claim-side reference functions for the display-unit rule -/

/-- The volume display-unit rule exactly as the claim states it, with
the rounded thresholds 59.147, 14.787 and 4.929 written in the claim. -/
def claimVolumeUnit (t : ℚ) (preferred : List String) : String :=
  if preferred.contains "l" = true ∨ t ≥ 1000 then "l"
  else if preferred.contains "cup" = true ∨ t ≥ 59.147 then "cup"
  else if preferred.contains "tbsp" = true ∨ t ≥ 14.787 then "tbsp"
  else if preferred.contains "tsp" = true ∨ t ≥ 4.929 then "tsp"
  else if preferred.contains "ml" = true then "ml"
  else "tsp"

/-- The volume display-unit rule with the exact thresholds of the
source: a quarter cup, one tablespoon and one teaspoon in milliliters. -/
def specVolumeUnit (t : ℚ) (preferred : List String) : String :=
  if preferred.contains "l" = true ∨ t ≥ 1000 then "l"
  else if preferred.contains "cup" = true ∨ t ≥ cupMl / 4 then "cup"
  else if preferred.contains "tbsp" = true ∨ t ≥ tbspMl then "tbsp"
  else if preferred.contains "tsp" = true ∨ t ≥ tspMl then "tsp"
  else if preferred.contains "ml" = true then "ml"
  else "tsp"

/-- Milliliters per unit for the five display units of the volume rule. -/
def specVolumeFactor (u : String) : ℚ :=
  if u = "l" then 1000
  else if u = "ml" then 1
  else if u = "cup" then cupMl
  else if u = "tbsp" then tbspMl
  else tspMl

/-- The weight display-unit rule with the exact thresholds of the
source. -/
def specWeightUnit (t : ℚ) (preferred : List String) : String :=
  if preferred.contains "kg" = true ∨ t ≥ 1000 then "kg"
  else if preferred.contains "lb" = true ∨ t ≥ lbG then "lb"
  else if preferred.contains "oz" = true ∨ t ≥ ozG then "oz"
  else "g"

/-- Grams per unit for the four display units of the weight rule. -/
def specWeightFactor (u : String) : ℚ :=
  if u = "kg" then 1000
  else if u = "lb" then lbG
  else if u = "oz" then ozG
  else 1

/-- The keys of an association list. -/
def keysOf {α : Type} (m : List (String × α)) : List String := m.map Prod.fst

/-- The selected recipes flattened into (title, ingredient) pairs, in
processing order: the nested iteration of generateGroceryList visits
exactly this sequence. -/
def selectedPairs (recipes : List Recipe) (selectedRecipes : List ℤ) :
    List (String × Ingredient) :=
  (recipes.filter (fun r => selectedRecipes.contains r.id)).foldr
    (fun r acc => r.ingredients.map (fun i => (r.title, i)) ++ acc) []

/-- Whether one (title, ingredient) pair contributes a line to the
bucket of the given normalized aisle and name: its name normalizes to
that non-empty key and its aisle normalizes to that aisle. -/
def contributesB (aisle nk : String) (p : String × Ingredient) : Bool :=
  decide (normalizeIngredientName p.2.name = nk) && decide (¬nk = "") &&
  decide (normalizeAisle p.2.aisle = aisle)

/-- The titles of the recipes contributing at least one line to the
(aisle, name) pair, in first-contribution order, with repetitions. -/
def contribTitles (rs : List Recipe) (sel : List ℤ) (aisle nk : String) :
    List String :=
  ((selectedPairs rs sel).filter (contributesB aisle nk)).map Prod.fst

/-- Deduplication keeping the first occurrence, as a Set built by
repeated insertion does. -/
def dedupKeepFirst (l : List String) : List String :=
  l.foldl (fun acc t => addSet t acc) []

/-- Structural well-formedness of the accumulator map: the aisle keys,
the name keys of every aisle and the unknown labels of every bucket are
without duplicates, and no unknown label is empty. -/
def MapWF (acc : AggMap) : Prop :=
  (keysOf acc).Nodup ∧
  ∀ a ∈ acc, (keysOf a.2).Nodup ∧
    ∀ b ∈ a.2, (keysOf b.2.unknownTotals).Nodup ∧
      ∀ e ∈ b.2.unknownTotals, ¬e.1 = ""

/-- The provenance invariant: after processing a list of pairs, the
source set of every existing bucket is exactly the deduplicated list of
titles of the pairs that contributed to that bucket's (aisle, name), and
no bucket exists without a contributing pair. -/
def SourcesInv (done : List (String × Ingredient)) (acc : AggMap) : Prop :=
  ∀ aisle nk : String,
    (∀ agg, (alGet? aisle acc).bind (alGet? nk) = some agg →
      agg.sources =
        dedupKeepFirst ((done.filter (contributesB aisle nk)).map Prod.fst)) ∧
    ((alGet? aisle acc).bind (alGet? nk) = none →
      (done.filter (contributesB aisle nk)).map Prod.fst = [])

/-- The key-provenance invariant: every name key of every aisle of the
accumulator is the normalized name of some already processed ingredient
line. -/
def KeysProv (done : List (String × Ingredient)) (acc : AggMap) : Prop :=
  ∀ a ∈ acc, ∀ b ∈ a.2, ∃ p ∈ done, normalizeIngredientName p.2.name = b.1

/-- All running totals of a bucket are non-negative. -/
def AggNN (agg : Agg) : Prop :=
  0 ≤ agg.countTotal ∧ 0 ≤ agg.volumeMlTotal ∧ 0 ≤ agg.weightGTotal ∧
  ∀ e ∈ agg.unknownTotals, 0 ≤ e.2

/-- The vulgar-fraction characters of the normalization table. -/
def vulgarFracChar (c : Char) : Bool :=
  (UNICODE_FRACTIONS.map Prod.fst).contains c

/-- A character that can seed a numeric token: an ASCII digit or a
vulgar fraction. A string without any of these is non-numeric: every
stage of the parser leaves it without digits and its tokens all
contribute zero. -/
def numericSeed (c : Char) : Bool := c.isDigit || vulgarFracChar c

/-! ### Provenance lemmas for the parser pipeline -/

theorem mem_of_mem_takeWhile {p : Char → Bool} {c : Char} :
    ∀ {l : List Char}, c ∈ l.takeWhile p → c ∈ l := by
  intro l
  induction l with
  | nil => intro h; exact absurd h (by simp)
  | cons x xs ih =>
    intro h
    rw [List.takeWhile_cons] at h
    split at h
    · rcases List.mem_cons.mp h with he | hm
      · exact he ▸ List.mem_cons_self x xs
      · exact List.mem_cons_of_mem x (ih hm)
    · exact absurd h (by simp)

theorem mem_of_mem_dropWhile {p : Char → Bool} {c : Char} :
    ∀ {l : List Char}, c ∈ l.dropWhile p → c ∈ l := by
  intro l
  induction l with
  | nil => intro h; exact absurd h (by simp)
  | cons x xs ih =>
    intro h
    rw [List.dropWhile_cons] at h
    split at h
    · exact List.mem_cons_of_mem x (ih h)
    · exact h

theorem takeWhile_eq_nil_of_none {p : Char → Bool} :
    ∀ {l : List Char}, (∀ c ∈ l, p c = false) → l.takeWhile p = [] := by
  intro l
  induction l with
  | nil => intro _; rfl
  | cons x xs _ =>
    intro h
    rw [List.takeWhile_cons, h x (List.mem_cons_self x xs)]
    simp

theorem trimChars_subset {l : List Char} {c : Char} (h : c ∈ trimChars l) :
    c ∈ l := by
  unfold trimChars at h
  rw [List.mem_reverse] at h
  have h2 := mem_of_mem_dropWhile h
  rw [List.mem_reverse] at h2
  exact mem_of_mem_dropWhile h2

theorem jsToLower_numericSeed {c : Char} (h : numericSeed c = false) :
    numericSeed (jsToLower c) = false := by
  unfold jsToLower
  split <;> first | decide | exact h

theorem replaceAttachedFrac_not_mem (u : Char) (a : List Char) :
    ∀ l : List Char, u ∉ l → replaceAttachedFrac u a l = l
  | [], _ => rfl
  | [_], _ => rfl
  | c :: d :: rest, h => by
    have hd : (d == u) = false := by
      rw [beq_eq_false_iff_ne]
      intro e
      exact h (by simp [e])
    have ih := replaceAttachedFrac_not_mem u a (d :: rest)
      (fun m => h (List.mem_cons_of_mem c m))
    simp only [replaceAttachedFrac, hd, Bool.and_false, Bool.false_eq_true,
      if_false, ih]

theorem replaceAllChar_not_mem (u : Char) (a : List Char) :
    ∀ l : List Char, u ∉ l → replaceAllChar u a l = l := by
  intro l
  induction l with
  | nil => intro _; rfl
  | cons c rest ih =>
    intro h
    have hc : (c == u) = false := by
      rw [beq_eq_false_iff_ne]
      intro e; exact h (by simp [e])
    have h2 : u ∉ rest := fun m => h (List.mem_cons_of_mem c m)
    simp only [replaceAllChar, concatAll, List.map_cons, List.foldr_cons, hc,
      Bool.false_eq_true, if_false]
    have := ih h2
    simp only [replaceAllChar, concatAll] at this
    rw [this]
    rfl

theorem foldl_fractions_not_mem :
    ∀ (fr : List (Char × List Char)) (l : List Char), (∀ p ∈ fr, p.1 ∉ l) →
      fr.foldl (fun s p => replaceAllChar p.1 p.2 (replaceAttachedFrac p.1 p.2 s)) l = l := by
  intro fr
  induction fr with
  | nil => intro l _; rfl
  | cons p ps ih =>
    intro l hmem
    simp only [List.foldl_cons]
    rw [replaceAttachedFrac_not_mem p.1 p.2 l (hmem p (List.mem_cons_self p ps)),
      replaceAllChar_not_mem p.1 p.2 l (hmem p (List.mem_cons_self p ps))]
    exact ih l (fun q hq => hmem q (List.mem_cons_of_mem p hq))

theorem normalizeFractions_of_no_vulgar {l : List Char}
    (h : ∀ c ∈ l, vulgarFracChar c = false) : normalizeFractions l = l := by
  unfold normalizeFractions
  refine foldl_fractions_not_mem UNICODE_FRACTIONS l ?_
  intro p hp hmem
  have hv := h p.1 hmem
  unfold vulgarFracChar at hv
  have hm : p.1 ∈ List.map Prod.fst UNICODE_FRACTIONS :=
    List.mem_map_of_mem Prod.fst hp
  exact absurd hm (by simpa using hv)

theorem stripApproxSymbols_mem {l : List Char} {c : Char}
    (h : c ∈ stripApproxSymbols l) : c = ' ' ∨ c ∈ l := by
  unfold stripApproxSymbols at h
  rw [List.mem_map] at h
  obtain ⟨c0, hc0, he⟩ := h
  split at he
  · exact Or.inl he.symm
  · exact Or.inr (he ▸ hc0)

theorem dropSeq_subset :
    ∀ (ps l r : List Char), dropSeq ps l = some r → ∀ c ∈ r, c ∈ l
  | [], _, _, h => by
    simp only [dropSeq, Option.some_inj] at h
    intro c hc; rw [← h] at hc; exact hc
  | _ :: _, [], _, h => by simp [dropSeq] at h
  | p :: ps, c :: cs, r, h => by
    simp only [dropSeq] at h
    split at h
    · intro x hx
      exact List.mem_cons_of_mem c (dropSeq_subset ps cs r h x hx)
    · exact absurd h (by simp)

theorem matchLetterWord_subset {w : List Char} {lastC : Char}
    {l : List Char} {a : Char} {r : List Char}
    (h : matchLetterWord w lastC l = some (a, r)) : ∀ c ∈ r, c ∈ l := by
  unfold matchLetterWord at h
  split at h
  case h_1 r0 heq =>
    split at h
    · have h2 := congrArg Prod.snd (Option.some_inj.mp h)
      simp only at h2
      rw [← h2]
      exact dropSeq_subset w l r0 heq
    · exact absurd h (by simp)
  case h_2 => exact absurd h (by simp)

theorem matchApprox_subset {l : List Char} {a : Char} {r : List Char}
    (h : matchApprox l = some (a, r)) : ∀ c ∈ r, c ∈ l := by
  unfold matchApprox at h
  split at h
  case h_1 => exact absurd h (by simp)
  case h_2 r0 heq =>
    have hsub := dropSeq_subset "approx".toList l r0 heq
    split at h
    case h_1 r2 hr0 =>
      split at h
      · have h2 := congrArg Prod.snd (Option.some_inj.mp h)
        simp only at h2
        rw [← h2]
        intro c hc
        exact hsub c (List.mem_cons_of_mem '.' hc)
      · have h2 := congrArg Prod.snd (Option.some_inj.mp h)
        simp only at h2
        rw [← h2]
        exact hsub
    case h_2 =>
      split at h
      · have h2 := congrArg Prod.snd (Option.some_inj.mp h)
        simp only at h2
        rw [← h2]; exact hsub
      · exact absurd h (by simp)

theorem tryQualifier_subset {l : List Char} {a : Char} {r : List Char}
    (h : tryQualifier l = some (a, r)) : ∀ c ∈ r, c ∈ l := by
  unfold tryQualifier at h
  rcases h1 : matchLetterWord "about".toList 't' l with _ | p1
  · rw [h1] at h
    simp only [Option.orElse, Option.none_orElse] at h
    rcases h2 : matchApprox l with _ | p2
    · rw [h2] at h
      simp only at h
      rcases h3 : matchLetterWord "approximately".toList 'y' l with _ | p3
      · rw [h3] at h
        simp only at h
        rcases h4 : matchLetterWord "around".toList 'd' l with _ | p4
        · rw [h4] at h
          simp only at h
          exact matchLetterWord_subset h
        · rw [h4] at h
          simp only [Option.some_inj] at h
          rw [h] at h4
          exact matchLetterWord_subset h4
      · rw [h3] at h
        simp only [Option.some_inj] at h
        rw [h] at h3
        exact matchLetterWord_subset h3
    · rw [h2] at h
      simp only [Option.some_inj] at h
      rw [h] at h2
      exact matchApprox_subset h2
  · rw [h1] at h
    simp only [Option.orElse, Option.some_orElse, Option.some_inj] at h
    rw [h] at h1
    exact matchLetterWord_subset h1

theorem stripQualifierWordsAux_mem :
    ∀ (fuel : ℕ) (prev : Bool) (l : List Char) (c : Char),
      c ∈ stripQualifierWordsAux fuel prev l → c = ' ' ∨ c ∈ l := by
  intro fuel
  induction fuel with
  | zero =>
    intro prev l c h
    cases l with
    | nil => exact absurd h (by simp [stripQualifierWordsAux])
    | cons x xs => exact Or.inr h
  | succ n ih =>
    intro prev l c h
    cases l with
    | nil => exact absurd h (by simp [stripQualifierWordsAux])
    | cons x xs =>
      simp only [stripQualifierWordsAux] at h
      split at h
      · split at h
        case h_1 lastC r heq =>
          rcases List.mem_cons.mp h with he | hm
          · exact Or.inl he
          · rcases ih (isWordChar lastC) r c hm with he | hm2
            · exact Or.inl he
            · exact Or.inr (tryQualifier_subset heq c hm2)
        case h_2 =>
          rcases List.mem_cons.mp h with he | hm
          · exact Or.inr (he ▸ List.mem_cons_self x xs)
          · rcases ih (isWordChar x) xs c hm with he | hm2
            · exact Or.inl he
            · exact Or.inr (List.mem_cons_of_mem x hm2)
      · rcases List.mem_cons.mp h with he | hm
        · exact Or.inr (he ▸ List.mem_cons_self x xs)
        · rcases ih (isWordChar x) xs c hm with he | hm2
          · exact Or.inl he
          · exact Or.inr (List.mem_cons_of_mem x hm2)

theorem matchNumber_subset {l n1 r : List Char}
    (h : matchNumber l = some (n1, r)) :
    (∀ c ∈ n1, c ∈ l) ∧ ∀ c ∈ r, c ∈ l := by
  simp only [matchNumber] at h
  split at h
  · exact absurd h (by simp)
  · split at h
    case h_1 r2 heq =>
      split at h
      · have h1 := congrArg Prod.fst (Option.some_inj.mp h)
        have h2 := congrArg Prod.snd (Option.some_inj.mp h)
        simp only at h1 h2
        constructor
        · intro c hc; rw [← h1] at hc; exact mem_of_mem_takeWhile hc
        · intro c hc; rw [← h2] at hc
          exact mem_of_mem_dropWhile hc
      · have h1 := congrArg Prod.fst (Option.some_inj.mp h)
        have h2 := congrArg Prod.snd (Option.some_inj.mp h)
        simp only at h1 h2
        have hr2 : ∀ c ∈ r2, c ∈ l := by
          intro c hc
          have : c ∈ l.dropWhile Char.isDigit := by
            rw [heq]; exact List.mem_cons_of_mem '.' hc
          exact mem_of_mem_dropWhile this
        constructor
        · intro c hc
          rw [← h1] at hc
          rcases List.mem_append.mp hc with hm | hm
          · exact mem_of_mem_takeWhile hm
          · rcases List.mem_cons.mp hm with he | hm2
            · have : c ∈ l.dropWhile Char.isDigit := by
                rw [heq, he]; exact List.mem_cons_self '.' r2
              exact mem_of_mem_dropWhile this
            · exact hr2 c (mem_of_mem_takeWhile hm2)
        · intro c hc
          rw [← h2] at hc
          exact hr2 c (mem_of_mem_dropWhile hc)
    case h_2 =>
      have h1 := congrArg Prod.fst (Option.some_inj.mp h)
      have h2 := congrArg Prod.snd (Option.some_inj.mp h)
      simp only at h1 h2
      constructor
      · intro c hc; rw [← h1] at hc; exact mem_of_mem_takeWhile hc
      · intro c hc; rw [← h2] at hc; exact mem_of_mem_dropWhile hc

theorem matchRange_subset {l rep r : List Char}
    (h : matchRange l = some (rep, r)) :
    (∀ c ∈ rep, c ∈ l) ∧ ∀ c ∈ r, c ∈ l := by
  simp only [matchRange] at h
  split at h
  case h_1 => exact absurd h (by simp)
  case h_2 n1 r1 heq1 =>
    obtain ⟨hn1, hr1⟩ := matchNumber_subset heq1
    split at h
    case h_2 => exact absurd h (by simp)
    case h_1 c0 r2 heq2 =>
      have hr2 : ∀ c ∈ r2, c ∈ l := by
        intro c hc
        have : c ∈ r1.dropWhile jsIsSpace := by
          rw [heq2]; exact List.mem_cons_of_mem c0 hc
        exact hr1 c (mem_of_mem_dropWhile this)
      split at h
      · split at h
        case h_1 n2 r3 heq3 =>
          obtain ⟨_, hr3⟩ := matchNumber_subset heq3
          have hp := Option.some_inj.mp h
          have h1 := congrArg Prod.fst hp
          have h2 := congrArg Prod.snd hp
          simp only at h1 h2
          constructor
          · intro c hc; rw [← h1] at hc; exact hn1 c hc
          · intro c hc
            rw [← h2] at hc
            exact hr2 c (mem_of_mem_dropWhile (hr3 c hc))
        case h_2 => exact absurd h (by simp)
      · exact absurd h (by simp)

theorem collapseRangesAux_mem :
    ∀ (fuel : ℕ) (l : List Char) (c : Char),
      c ∈ collapseRangesAux fuel l → c ∈ l := by
  intro fuel
  induction fuel with
  | zero =>
    intro l c h
    cases l with
    | nil => exact absurd h (by simp [collapseRangesAux])
    | cons x xs => exact h
  | succ n ih =>
    intro l c h
    cases l with
    | nil => exact absurd h (by simp [collapseRangesAux])
    | cons x xs =>
      simp only [collapseRangesAux] at h
      split at h
      case h_1 rep r heq =>
        obtain ⟨hrep, hr⟩ := matchRange_subset heq
        rcases List.mem_append.mp h with hm | hm
        · exact hrep c hm
        · exact hr c (ih r c hm)
      case h_2 =>
        rcases List.mem_cons.mp h with he | hm
        · exact he ▸ List.mem_cons_self x xs
        · exact List.mem_cons_of_mem x (ih xs c hm)

theorem splitWsGroups_mem :
    ∀ (l : List Char) (t : List Char), t ∈ splitWsGroups l → ∀ c ∈ t, c ∈ l := by
  intro l
  induction l with
  | nil =>
    intro t ht
    exact absurd ht (by simp [splitWsGroups])
  | cons x xs ih =>
    intro t ht c hc
    simp only [splitWsGroups, List.foldr_cons] at ht
    split at ht
    · rcases List.mem_cons.mp ht with he | hm
      · rw [he] at hc; exact absurd hc (by simp)
      · exact List.mem_cons_of_mem x (ih t hm c hc)
    · split at ht
      case h_1 heq =>
        rcases List.mem_cons.mp ht with he | hm
        · rw [he] at hc
          rcases List.mem_cons.mp hc with he2 | hm2
          · exact he2 ▸ List.mem_cons_self x xs
          · exact absurd hm2 (by simp)
        · exact absurd hm (by simp)
      case h_2 g gs heq =>
        rcases List.mem_cons.mp ht with he | hm
        · rw [he] at hc
          rcases List.mem_cons.mp hc with he2 | hm2
          · exact he2 ▸ List.mem_cons_self x xs
          · refine List.mem_cons_of_mem x (ih g ?_ c hm2)
            unfold splitWsGroups
            rw [heq]; exact List.mem_cons_self g gs
        · refine List.mem_cons_of_mem x (ih t ?_ c hc)
          unfold splitWsGroups
          rw [heq]; exact List.mem_cons_of_mem g hm

theorem parseFractionToken_of_no_digit {t : List Char}
    (h : ∀ c ∈ t, Char.isDigit c = false) : parseFractionToken t = none := by
  unfold parseFractionToken
  rw [takeWhile_eq_nil_of_none h]
  rfl

theorem parseFloatQ_of_no_digit {t : List Char}
    (h : ∀ c ∈ t, Char.isDigit c = false) : parseFloatQ t = none := by
  unfold parseFloatQ
  rw [takeWhile_eq_nil_of_none h]
  simp only [List.isEmpty_nil, if_true]
  split
  case h_1 x r2 =>
    have hr2 : ∀ c ∈ r2, Char.isDigit c = false := by
      intro c hc
      exact h c (List.mem_cons_of_mem '.' hc)
    rw [takeWhile_eq_nil_of_none hr2]
    rfl
  case h_2 => rfl

theorem tokenValue_of_no_digit {t : List Char}
    (h : ∀ c ∈ t, Char.isDigit c = false) : tokenValue t = 0 := by
  unfold tokenValue
  rw [parseFractionToken_of_no_digit h, parseFloatQ_of_no_digit h]

theorem foldl_tokenValue_zero :
    ∀ (ts : List (List Char)) (a : ℚ), (∀ t ∈ ts, tokenValue t = 0) →
      ts.foldl (fun acc t => acc + tokenValue t) a = a := by
  intro ts
  induction ts with
  | nil => intro a _; rfl
  | cons t rest ih =>
    intro a h
    simp only [List.foldl_cons]
    rw [h t (List.mem_cons_self t rest), add_zero]
    exact ih a (fun u hu => h u (List.mem_cons_of_mem t hu))

theorem numericSeed_isDigit {c : Char} (h : numericSeed c = false) :
    Char.isDigit c = false := by
  unfold numericSeed at h
  exact (Bool.or_eq_false_iff.mp h).1

theorem numericSeed_vulgar {c : Char} (h : numericSeed c = false) :
    vulgarFracChar c = false := by
  unfold numericSeed at h
  exact (Bool.or_eq_false_iff.mp h).2

/-- A string without digits and without vulgar-fraction characters
parses to zero: no stage of the pipeline can create a digit from it, so
every token contributes nothing. -/
theorem parseQuantityChars_of_non_numeric {l : List Char}
    (h : ∀ c ∈ l, numericSeed c = false) : parseQuantityChars l = 0 := by
  have h0 : ∀ c ∈ lowerChars (trimChars l), numericSeed c = false := by
    intro c hc
    rw [lowerChars, List.mem_map] at hc
    obtain ⟨c0, hc0, he⟩ := hc
    exact he ▸ jsToLower_numericSeed (h c0 (trimChars_subset hc0))
  simp only [parseQuantityChars]
  split
  · rfl
  · rw [normalizeFractions_of_no_vulgar (fun c hc => numericSeed_vulgar (h0 c hc))]
    have h2 : ∀ c ∈ stripApproxSymbols (lowerChars (trimChars l)),
        numericSeed c = false := by
      intro c hc
      rcases stripApproxSymbols_mem hc with he | hm
      · rw [he]; decide
      · exact h0 c hm
    have h3 : ∀ c ∈ stripQualifierWords (stripApproxSymbols (lowerChars (trimChars l))),
        numericSeed c = false := by
      intro c hc
      rcases stripQualifierWordsAux_mem _ false _ c hc with he | hm
      · rw [he]; decide
      · exact h2 c hm
    have h4 : ∀ c ∈ collapseRanges (stripQualifierWords (stripApproxSymbols
        (lowerChars (trimChars l)))), numericSeed c = false := by
      intro c hc
      exact h3 c (collapseRangesAux_mem _ _ c hc)
    refine foldl_tokenValue_zero _ 0 ?_
    intro t ht
    rw [List.mem_filter] at ht
    obtain ⟨hmap, _⟩ := ht
    rw [List.mem_map] at hmap
    obtain ⟨t0, ht0, he⟩ := hmap
    refine tokenValue_of_no_digit ?_
    intro c hc
    rw [← he] at hc
    have hct0 : c ∈ t0 := List.mem_of_mem_filter hc
    exact numericSeed_isDigit (h4 c (splitWsGroups_mem _ t0 ht0 c hct0))

/-! ### Association-list and sorting membership lemmas -/

theorem mem_alSet {α : Type} {k : String} {v : α} :
    ∀ {m : List (String × α)} {p : String × α},
      p ∈ alSet k v m → p = (k, v) ∨ p ∈ m := by
  intro m
  induction m with
  | nil =>
    intro p hp
    simp only [alSet, List.mem_singleton] at hp
    exact Or.inl hp
  | cons q rest ih =>
    intro p hp
    simp only [alSet] at hp
    split at hp
    · rcases List.mem_cons.mp hp with he | hm
      · exact Or.inl he
      · exact Or.inr (List.mem_cons_of_mem q hm)
    · rcases List.mem_cons.mp hp with he | hm
      · exact Or.inr (he ▸ List.mem_cons_self q rest)
      · rcases ih hm with h1 | h2
        · exact Or.inl h1
        · exact Or.inr (List.mem_cons_of_mem q h2)

theorem alGet?_mem {α : Type} {k : String} :
    ∀ {m : List (String × α)} {v : α}, alGet? k m = some v → (k, v) ∈ m := by
  intro m
  induction m with
  | nil => intro v hv; exact absurd hv (by simp [alGet?])
  | cons q rest ih =>
    intro v hv
    simp only [alGet?] at hv
    split at hv
    case isTrue he =>
      have hv2 := Option.some_inj.mp hv
      rw [List.mem_cons]
      left
      rw [he, ← hv2]
    case isFalse => exact List.mem_cons_of_mem q (ih hv)

theorem mem_foldl_alSet {α : Type} :
    ∀ (ps : List (String × α)) (acc : List (String × α)) (p : String × α),
      p ∈ ps.foldl (fun m kv => alSet kv.1 kv.2 m) acc → p ∈ ps ∨ p ∈ acc := by
  intro ps
  induction ps with
  | nil => intro acc p hp; exact Or.inr hp
  | cons kv rest ih =>
    intro acc p hp
    simp only [List.foldl_cons] at hp
    rcases ih _ p hp with h1 | h2
    · exact Or.inl (List.mem_cons_of_mem kv h1)
    · rcases mem_alSet h2 with he | hm
      · exact Or.inl (by rw [List.mem_cons]; exact Or.inl he)
      · exact Or.inr hm

theorem mem_insertByKey {α : Type} {p : String × α} :
    ∀ {l : List (String × α)} {q : String × α},
      q ∈ insertByKey p l → q = p ∨ q ∈ l := by
  intro l
  induction l with
  | nil =>
    intro q hq
    simp only [insertByKey, List.mem_singleton] at hq
    exact Or.inl hq
  | cons x xs ih =>
    intro q hq
    simp only [insertByKey] at hq
    split at hq
    · rcases List.mem_cons.mp hq with he | hm
      · exact Or.inl he
      · exact Or.inr hm
    · rcases List.mem_cons.mp hq with he | hm
      · exact Or.inr (he ▸ List.mem_cons_self x xs)
      · rcases ih hm with h1 | h2
        · exact Or.inl h1
        · exact Or.inr (List.mem_cons_of_mem x h2)

theorem mem_sortByKey {α : Type} {q : String × α} :
    ∀ {l : List (String × α)}, q ∈ sortByKey l → q ∈ l := by
  intro l
  induction l with
  | nil => intro hq; exact absurd hq (by simp [sortByKey])
  | cons x xs ih =>
    intro hq
    simp only [sortByKey, List.foldr_cons] at hq
    rcases mem_insertByKey hq with he | hm
    · exact he ▸ List.mem_cons_self x xs
    · exact List.mem_cons_of_mem x (ih hm)

theorem mem_generateGroceryList {rs : List Recipe} {sel : List ℤ}
    {q : String × List (String × DisplayRow)}
    (hq : q ∈ generateGroceryList rs sel) :
    ∃ p ∈ buildAggMap rs sel, q = (p.1, aisleRows p.1 p.2) := by
  have haux : ∀ (l : AggMap) (acc : List (String × List (String × DisplayRow))),
      q ∈ l.foldl (fun combined p => alSet p.1 (aisleRows p.1 p.2) combined) acc →
      (∃ p ∈ l, q = (p.1, aisleRows p.1 p.2)) ∨ q ∈ acc := by
    intro l
    induction l with
    | nil => intro acc h; exact Or.inr h
    | cons p rest ih =>
      intro acc h
      simp only [List.foldl_cons] at h
      rcases ih _ h with ⟨p2, hp2, he⟩ | h2
      · exact Or.inl ⟨p2, List.mem_cons_of_mem p hp2, he⟩
      · rcases mem_alSet h2 with he | hm
        · exact Or.inl ⟨p, List.mem_cons_self p rest, he⟩
        · exact Or.inr hm
  rcases haux (buildAggMap rs sel) [] hq with h1 | h2
  · exact h1
  · exact absurd h2 (by simp)

theorem mem_aisleRows {aisle : String} {byName : List (String × Agg)}
    {q : String × DisplayRow} (h : q ∈ aisleRows aisle byName) :
    ∃ p ∈ byName, q ∈ emitName aisle p.1 p.2 := by
  have haux : ∀ (bl : List (String × Agg)) (acc : List (String × DisplayRow)),
      q ∈ bl.foldl
        (fun m p => (emitName aisle p.1 p.2).foldl (fun m2 kv => alSet kv.1 kv.2 m2) m)
        acc →
      (∃ p ∈ bl, q ∈ emitName aisle p.1 p.2) ∨ q ∈ acc := by
    intro bl
    induction bl with
    | nil => intro acc hh; exact Or.inr hh
    | cons p rest ih =>
      intro acc hh
      simp only [List.foldl_cons] at hh
      rcases ih _ hh with ⟨p2, hp2, he⟩ | h2
      · exact Or.inl ⟨p2, List.mem_cons_of_mem p hp2, he⟩
      · rcases mem_foldl_alSet _ _ _ h2 with hm | hm2
        · exact Or.inl ⟨p, List.mem_cons_self p rest, hm⟩
        · exact Or.inr hm2
  unfold aisleRows at h
  rcases haux (sortByKey byName) [] h with ⟨p, hp, he⟩ | h2
  · exact ⟨p, mem_sortByKey hp, he⟩
  · exact absurd h2 (by simp)

/-! ### Non-negativity lemmas -/

theorem parseFractionToken_nonneg {t : List Char} {f : ℚ}
    (h : parseFractionToken t = some f) : 0 ≤ f := by
  simp only [parseFractionToken] at h
  split at h
  · exact absurd h (by simp)
  · split at h
    case h_1 =>
      split at h
      · exact absurd h (by simp)
      · split at h
        · exact absurd h (by simp)
        · rw [← Option.some_inj.mp h]
          exact div_nonneg (Nat.cast_nonneg _) (Nat.cast_nonneg _)
    case h_2 => exact absurd h (by simp)

theorem parseFloatQ_nonneg {t : List Char} {f : ℚ}
    (h : parseFloatQ t = some f) : 0 ≤ f := by
  simp only [parseFloatQ] at h
  split at h
  · split at h
    case h_1 =>
      split at h
      · exact absurd h (by simp)
      · rw [← Option.some_inj.mp h]
        exact div_nonneg (Nat.cast_nonneg _) (by positivity)
    case h_2 => exact absurd h (by simp)
  · split at h
    case h_1 =>
      rw [← Option.some_inj.mp h]
      exact add_nonneg (Nat.cast_nonneg _)
        (div_nonneg (Nat.cast_nonneg _) (by positivity))
    case h_2 =>
      rw [← Option.some_inj.mp h]
      exact Nat.cast_nonneg _

theorem tokenValue_nonneg (t : List Char) : 0 ≤ tokenValue t := by
  unfold tokenValue
  split
  case h_1 f hf => exact parseFractionToken_nonneg hf
  case h_2 =>
    split
    case h_1 f hf => exact parseFloatQ_nonneg hf
    case h_2 => exact le_refl 0

theorem foldl_tokenValue_nonneg :
    ∀ (ts : List (List Char)) (a : ℚ), 0 ≤ a →
      0 ≤ ts.foldl (fun acc t => acc + tokenValue t) a := by
  intro ts
  induction ts with
  | nil => intro a ha; exact ha
  | cons t rest ih =>
    intro a ha
    simp only [List.foldl_cons]
    exact ih _ (add_nonneg ha (tokenValue_nonneg t))

theorem parseQuantityToNumber_nonneg (s : String) :
    0 ≤ parseQuantityToNumber s := by
  unfold parseQuantityToNumber
  split
  · exact le_refl 0
  · simp only [parseQuantityChars]
    split
    · exact le_refl 0
    · exact foldl_tokenValue_nonneg _ 0 (le_refl 0)

theorem volumeAlias?_nonneg {u : String} {cf : String × ℚ}
    (h : volumeAlias? u = some cf) : 0 ≤ cf.2 := by
  unfold volumeAlias? at h
  split at h <;>
    first
      | (rw [← Option.some_inj.mp h]; decide)
      | simp at h

theorem weightAlias?_nonneg {u : String} {cf : String × ℚ}
    (h : weightAlias? u = some cf) : 0 ≤ cf.2 := by
  unfold weightAlias? at h
  split at h <;>
    first
      | (rw [← Option.some_inj.mp h]; decide)
      | simp at h

theorem getUnitInfo_factor_nonneg (u : String) :
    0 ≤ (getUnitInfo u).toBaseFactor.getD 0 := by
  simp only [getUnitInfo]
  split
  · norm_num
  · split
    · norm_num
    · split
      case h_1 cf heq => simpa using volumeAlias?_nonneg heq
      case h_2 =>
        split
        case h_1 cf heq => simpa using weightAlias?_nonneg heq
        case h_2 => norm_num

theorem freshAgg_NN (name : String) : AggNN (freshAgg name) :=
  ⟨le_refl 0, le_refl 0, le_refl 0, by simp [freshAgg]⟩

theorem applyUnit_NN {info : UnitInfo} {q : ℚ} {agg : Agg}
    (hq : 0 ≤ q) (hf : 0 ≤ info.toBaseFactor.getD 0) (hNN : AggNN agg) :
    AggNN (applyUnit info q agg) := by
  obtain ⟨h1, h2, h3, h4⟩ := hNN
  simp only [applyUnit]
  split
  · exact ⟨add_nonneg h1 hq, h2, h3, h4⟩
  · exact ⟨h1, add_nonneg h2 (mul_nonneg hq hf), h3, h4⟩
  · exact ⟨h1, h2, add_nonneg h3 (mul_nonneg hq hf), h4⟩
  · refine ⟨h1, h2, h3, ?_⟩
    intro e he
    rcases mem_alSet he with heq | hm
    · rw [heq]
      rcases hg : alGet? info.prettyUnit agg.unknownTotals with _ | v
      · simp only [hg, Option.getD_none]
        simpa using hq
      · have hv := h4 (info.prettyUnit, v) (alGet?_mem hg)
        simp only [hg, Option.getD_some]
        exact add_nonneg hv hq
    · exact h4 e hm

theorem roundForDisplay_nonneg {n : ℚ} (h : 0 ≤ n) : 0 ≤ roundForDisplay n := by
  unfold roundForDisplay mathRound
  have hfl : (0 : ℤ) ≤ Int.floor ((n + jsEpsilon) * 100 + 1 / 2) := by
    rw [Int.le_floor]
    have heps : (0 : ℚ) ≤ jsEpsilon := by norm_num [jsEpsilon]
    push_cast
    nlinarith
  have : (0 : ℚ) ≤ (Int.floor ((n + jsEpsilon) * 100 + 1 / 2) : ℚ) := by
    exact_mod_cast hfl
  exact div_nonneg this (by norm_num)

theorem formatVolume_eq (t : ℚ) (P : List String) :
    formatVolumeFromMl t P =
      (roundForDisplay (t / specVolumeFactor (specVolumeUnit t P)),
       specVolumeUnit t P) := by
  simp only [formatVolumeFromMl, specVolumeUnit, specVolumeFactor]
  split_ifs <;> simp_all

theorem formatVolumeFromMl_nonneg {t : ℚ} (P : List String) (h : 0 ≤ t) :
    0 ≤ (formatVolumeFromMl t P).1 := by
  rw [formatVolume_eq]
  refine roundForDisplay_nonneg (div_nonneg h ?_)
  unfold specVolumeFactor
  split_ifs <;> norm_num [cupMl, tbspMl, tspMl]

theorem formatWeight_eq (t : ℚ) (P : List String) :
    formatWeightFromG t P =
      (roundForDisplay (t / specWeightFactor (specWeightUnit t P)),
       specWeightUnit t P) := by
  simp only [formatWeightFromG, specWeightUnit, specWeightFactor]
  split_ifs <;> simp_all

theorem formatWeightFromG_nonneg {t : ℚ} (P : List String) (h : 0 ≤ t) :
    0 ≤ (formatWeightFromG t P).1 := by
  rw [formatWeight_eq]
  refine roundForDisplay_nonneg (div_nonneg h ?_)
  unfold specWeightFactor
  split_ifs <;> norm_num [lbG, ozG]

theorem emitName_quantity_nonneg {aisle nk : String} {agg : Agg}
    (hNN : AggNN agg) {q : String × DisplayRow}
    (h : q ∈ emitName aisle nk agg) : 0 ≤ q.2.quantity := by
  obtain ⟨h1, h2, h3, h4⟩ := hNN
  simp only [emitName] at h
  rcases List.mem_append.mp h with h5 | h6
  · rcases List.mem_append.mp h5 with h7 | h8
    · rcases List.mem_append.mp h7 with h9 | h10
      · split at h9
        · rw [List.mem_singleton.mp h9]
          exact h1
        · exact absurd h9 (by simp)
      · split at h10
        · rw [List.mem_singleton.mp h10]
          exact formatVolumeFromMl_nonneg _ h2
        · exact absurd h10 (by simp)
    · split at h8
      · rw [List.mem_singleton.mp h8]
        exact formatWeightFromG_nonneg _ h3
      · exact absurd h8 (by simp)
  · rw [List.mem_map] at h6
    obtain ⟨e, he, heq⟩ := h6
    rw [← heq]
    exact h4 e he

/-! ### The accumulator invariant for non-negativity -/

theorem processIngredient_NN {title : String} {acc : AggMap} {ing : Ingredient}
    (hacc : ∀ a ∈ acc, ∀ b ∈ a.2, AggNN b.2) :
    ∀ a ∈ processIngredient title acc ing, ∀ b ∈ a.2, AggNN b.2 := by
  simp only [processIngredient]
  split
  · exact hacc
  · intro a ha b hb
    rcases mem_alSet ha with he | hm
    · rw [he] at hb
      simp only at hb
      rcases mem_alSet hb with he2 | hm2
      · rw [he2]
        simp only
        refine applyUnit_NN (parseQuantityToNumber_nonneg _)
          (getUnitInfo_factor_nonneg _) ?_
        rcases hby : alGet? (normalizeAisle ing.aisle) acc with _ | byName0
        · simp only [hby, Option.getD_none, alGet?, Option.getD_some]
          exact freshAgg_NN ing.name
        · simp only [hby, Option.getD_some]
          rcases hnk : alGet? (normalizeIngredientName ing.name) byName0 with _ | agg0
          · simp only [hnk, Option.getD_none]
            exact freshAgg_NN ing.name
          · simp only [hnk, Option.getD_some]
            exact hacc _ (alGet?_mem hby) _ (alGet?_mem hnk)
      · rcases hby : alGet? (normalizeAisle ing.aisle) acc with _ | byName0
        · rw [hby] at hm2
          exact absurd hm2 (by simp [alGet?])
        · rw [hby] at hm2
          simp only [Option.getD_some] at hm2
          exact hacc _ (alGet?_mem hby) b hm2
    · exact hacc a hm b hb

theorem foldl_ingredients_NN {title : String} :
    ∀ (ings : List Ingredient) (acc : AggMap),
      (∀ a ∈ acc, ∀ b ∈ a.2, AggNN b.2) →
      ∀ a ∈ ings.foldl (processIngredient title) acc, ∀ b ∈ a.2, AggNN b.2 := by
  intro ings
  induction ings with
  | nil => intro acc hacc; exact hacc
  | cons ing rest ih =>
    intro acc hacc
    simp only [List.foldl_cons]
    exact ih _ (processIngredient_NN hacc)

theorem buildAggMap_NN (rs : List Recipe) (sel : List ℤ) :
    ∀ a ∈ buildAggMap rs sel, ∀ b ∈ a.2, AggNN b.2 := by
  unfold buildAggMap
  have haux : ∀ (recs : List Recipe) (acc : AggMap),
      (∀ a ∈ acc, ∀ b ∈ a.2, AggNN b.2) →
      ∀ a ∈ recs.foldl
        (fun acc2 r => r.ingredients.foldl (processIngredient r.title) acc2) acc,
        ∀ b ∈ a.2, AggNN b.2 := by
    intro recs
    induction recs with
    | nil => intro acc hacc; exact hacc
    | cons r rest ih =>
      intro acc hacc
      simp only [List.foldl_cons]
      exact ih _ (foldl_ingredients_NN r.ingredients acc hacc)
  exact haux _ [] (by simp)

/-! ### String and classifier helper lemmas -/

theorem string_data_inj {a b : String} (h : a.data = b.data) : a = b :=
  congrArg String.mk h

theorem stringAppend_cancel_left {s a b : String} (h : s ++ a = s ++ b) :
    a = b := by
  have hd := congrArg String.data h
  rw [String.data_append, String.data_append] at hd
  exact string_data_inj (List.append_cancel_left hd)

/-- An unknown classification exposes the whole descriptor: the
canonical unit is the normalized string, the pretty unit is the raw
string, which is necessarily non-empty. -/
theorem getUnitInfo_unknown_char {r : String}
    (h : (getUnitInfo r).kind = .unknown) :
    getUnitInfo r = ⟨.unknown, normalizeUnitString r, r, none, none⟩ ∧ r ≠ "" := by
  simp only [getUnitInfo] at h ⊢
  split at h
  case isTrue => exact absurd h (by simp)
  case isFalse hne =>
    split at h
    case isTrue => exact absurd h (by simp)
    case isFalse hnc =>
      split at h
      case h_1 cf heqv => exact absurd h (by simp)
      case h_2 heqv =>
        split at h
        case h_1 cf heqw => exact absurd h (by simp)
        case h_2 heqw =>
          have hr : r ≠ "" := by
            intro e
            subst e
            exact hne (by decide)
          refine ⟨?_, hr⟩
          simp only [if_neg hne, if_neg hnc, heqv, heqw, if_neg hr]

/-! ### Lookup, update and well-formedness lemmas for the accumulator -/

theorem alGet?_alSet_self {α : Type} (k : String) (v : α) :
    ∀ (m : List (String × α)), alGet? k (alSet k v m) = some v := by
  intro m
  induction m with
  | nil => simp [alSet, alGet?]
  | cons p rest ih =>
    simp only [alSet]
    split
    · simp [alGet?]
    · simp only [alGet?]
      rw [if_neg (by assumption)]
      exact ih

theorem alGet?_alSet_ne {α : Type} {k k2 : String} (v : α) (hne : ¬k2 = k) :
    ∀ (m : List (String × α)), alGet? k2 (alSet k v m) = alGet? k2 m := by
  intro m
  induction m with
  | nil => simp [alSet, alGet?, hne]
  | cons p rest ih =>
    simp only [alSet]
    split
    case isTrue he =>
      simp only [alGet?]
      rw [if_neg hne, if_neg (by rw [← he]; exact hne)]
    case isFalse he =>
      simp only [alGet?]
      split
      · rfl
      · exact ih

theorem keysOf_alSet {α : Type} (k : String) (v : α) :
    ∀ (m : List (String × α)),
      keysOf (alSet k v m) =
        if k ∈ keysOf m then keysOf m else keysOf m ++ [k] := by
  intro m
  induction m with
  | nil => simp [alSet, keysOf]
  | cons p rest ih =>
    simp only [alSet]
    split
    case isTrue he =>
      have hmem : k ∈ keysOf (p :: rest) := by
        simp [keysOf, he]
      rw [if_pos hmem]
      simp [keysOf, he]
    case isFalse he =>
      simp only [keysOf, List.map_cons] at *
      rw [ih]
      by_cases hm : k ∈ List.map Prod.fst rest
      · rw [if_pos hm, if_pos (List.mem_cons_of_mem p.1 hm)]
      · rw [if_neg hm, if_neg ?_]
        · simp
        · simp only [List.mem_cons]
          rintro (h1 | h2)
          · exact he h1
          · exact hm h2

theorem nodup_keysOf_alSet {α : Type} {k : String} {v : α}
    {m : List (String × α)} (h : (keysOf m).Nodup) :
    (keysOf (alSet k v m)).Nodup := by
  rw [keysOf_alSet]
  split
  · exact h
  · simp only [List.nodup_append, List.nodup_singleton]
    exact ⟨h, trivial, by simpa using (by assumption : ¬k ∈ keysOf m)⟩

theorem alGet?_eq_some_of_mem {α : Type} :
    ∀ {m : List (String × α)} {k : String} {v : α},
      (keysOf m).Nodup → (k, v) ∈ m → alGet? k m = some v := by
  intro m
  induction m with
  | nil => intro k v _ hm; exact absurd hm (by simp)
  | cons p rest ih =>
    obtain ⟨pk, pv⟩ := p
    intro k v hnd hm
    simp only [keysOf, List.map_cons, List.nodup_cons] at hnd
    rcases List.mem_cons.mp hm with he | hmm
    · rw [Prod.mk.injEq] at he
      obtain ⟨hk, hv⟩ := he
      subst hk
      subst hv
      simp [alGet?]
    · simp only [alGet?]
      split
      case isTrue he2 =>
        exfalso
        apply hnd.1
        rw [← he2]
        exact List.mem_map_of_mem Prod.fst hmm
      case isFalse =>
        exact ih (by simpa [keysOf] using hnd.2) hmm

theorem alSet_of_not_mem {α : Type} {k : String} (v : α) :
    ∀ {m : List (String × α)}, ¬k ∈ keysOf m → alSet k v m = m ++ [(k, v)] := by
  intro m
  induction m with
  | nil => intro _; rfl
  | cons p rest ih =>
    intro h
    simp only [keysOf, List.map_cons, List.mem_cons] at h
    simp only [alSet]
    rw [if_neg (fun e => h (Or.inl e))]
    rw [ih (fun e => h (Or.inr (by simpa [keysOf] using e)))]
    rfl

theorem applyUnit_sources (info : UnitInfo) (q : ℚ) (agg : Agg) :
    (applyUnit info q agg).sources = agg.sources := by
  simp only [applyUnit]
  split <;> rfl

theorem applyUnit_unknown_cases (info : UnitInfo) (q : ℚ) (agg : Agg) :
    (applyUnit info q agg).unknownTotals = agg.unknownTotals ∨
    (info.kind = .unknown ∧
      (applyUnit info q agg).unknownTotals =
        alSet info.prettyUnit
          ((alGet? info.prettyUnit agg.unknownTotals).getD 0 + q)
          agg.unknownTotals) := by
  simp only [applyUnit]
  split
  · exact Or.inl rfl
  · exact Or.inl rfl
  · exact Or.inl rfl
  · exact Or.inr ⟨by assumption, rfl⟩

theorem dedupKeepFirst_append_singleton (l : List String) (t : String) :
    dedupKeepFirst (l ++ [t]) = addSet t (dedupKeepFirst l) := by
  simp [dedupKeepFirst, List.foldl_append]

theorem getUnitInfo_unknown_pretty_ne {r : String}
    (h : (getUnitInfo r).kind = .unknown) : ¬(getUnitInfo r).prettyUnit = "" := by
  obtain ⟨hc, hne⟩ := getUnitInfo_unknown_char h
  rw [hc]
  exact hne

/-! ### The provenance invariant of the accumulation phase -/

theorem unknownProps_applyUnit {info : UnitInfo} {q : ℚ} {agg : Agg}
    (hpne : info.kind = .unknown → ¬info.prettyUnit = "")
    (h1 : (keysOf agg.unknownTotals).Nodup)
    (h2 : ∀ e ∈ agg.unknownTotals, ¬e.1 = "") :
    (keysOf (applyUnit info q agg).unknownTotals).Nodup ∧
    ∀ e ∈ (applyUnit info q agg).unknownTotals, ¬e.1 = "" := by
  rcases applyUnit_unknown_cases info q agg with he | ⟨hk, he⟩
  · rw [he]; exact ⟨h1, h2⟩
  · rw [he]
    refine ⟨nodup_keysOf_alSet h1, ?_⟩
    intro e hee
    rcases mem_alSet hee with heq | hm
    · rw [heq]; exact hpne hk
    · exact h2 e hm

theorem bucket_lookup_props {acc : AggMap} (hWF : MapWF acc)
    (A K name : String) :
    (keysOf (((alGet? K ((alGet? A acc).getD [])).getD
        (freshAgg name)).unknownTotals)).Nodup ∧
    ∀ e ∈ ((alGet? K ((alGet? A acc).getD [])).getD
        (freshAgg name)).unknownTotals, ¬e.1 = "" := by
  rcases hby : alGet? A acc with _ | b0
  · simp [alGet?, freshAgg, keysOf]
  · simp only [Option.getD_some]
    rcases hbk : alGet? K b0 with _ | a0
    · simp [freshAgg, keysOf]
    · simp only [Option.getD_some]
      exact (hWF.2 _ (alGet?_mem hby)).2 _ (alGet?_mem hbk)

theorem MapWF_update {acc : AggMap} (hWF : MapWF acc) (A K : String)
    (agg2 : Agg) (hnodup : (keysOf agg2.unknownTotals).Nodup)
    (hne : ∀ e ∈ agg2.unknownTotals, ¬e.1 = "") :
    MapWF (alSet A (alSet K agg2 ((alGet? A acc).getD [])) acc) := by
  refine ⟨nodup_keysOf_alSet hWF.1, ?_⟩
  intro a ha
  rcases mem_alSet ha with hea | hma
  · subst hea
    simp only
    have hbynodup : (keysOf ((alGet? A acc).getD [])).Nodup := by
      rcases hby : alGet? A acc with _ | b0
      · simp [keysOf]
      · exact (hWF.2 _ (alGet?_mem hby)).1
    refine ⟨nodup_keysOf_alSet hbynodup, ?_⟩
    intro b hb
    rcases mem_alSet hb with heb | hmb
    · subst heb
      exact ⟨hnodup, hne⟩
    · rcases hby : alGet? A acc with _ | b0
      · rw [hby] at hmb
        exact absurd hmb (by simp)
      · rw [hby] at hmb
        simp only [Option.getD_some] at hmb
        exact (hWF.2 _ (alGet?_mem hby)).2 _ hmb
  · exact hWF.2 a hma

theorem processPair_inv {acc : AggMap} {done : List (String × Ingredient)}
    (p : String × Ingredient) (hWF : MapWF acc) (hinv : SourcesInv done acc) :
    MapWF (processIngredient p.1 acc p.2) ∧
    SourcesInv (done ++ [p]) (processIngredient p.1 acc p.2) := by
  simp only [processIngredient]
  split
  case isTrue hK0 =>
    refine ⟨hWF, ?_⟩
    unfold SourcesInv at hinv ⊢
    intro aisle nk
    have hcb : contributesB aisle nk p = false := by
      by_cases hnk : nk = ""
      · subst hnk
        simp [contributesB]
      · have h2 : ¬(normalizeIngredientName p.2.name = nk) := by
          rw [hK0]
          exact fun e => hnk e.symm
        simp [contributesB, h2]
    have hfl : ((done ++ [p]).filter (contributesB aisle nk)).map Prod.fst =
        (done.filter (contributesB aisle nk)).map Prod.fst := by
      rw [List.filter_append]
      simp [hcb]
    rw [hfl]
    exact hinv aisle nk
  case isFalse hKne =>
    have hprops := bucket_lookup_props hWF (normalizeAisle p.2.aisle)
      (normalizeIngredientName p.2.name) p.2.name
    have hprops2 := @unknownProps_applyUnit (getUnitInfo p.2.unit)
      (parseQuantityToNumber p.2.quantity)
      (bumpBucket p.1 p.2.name
        ((alGet? (normalizeIngredientName p.2.name)
          ((alGet? (normalizeAisle p.2.aisle) acc).getD [])).getD
          (freshAgg p.2.name)))
      (fun hk => getUnitInfo_unknown_pretty_ne hk) hprops.1 hprops.2
    refine ⟨MapWF_update hWF _ _ _ hprops2.1 hprops2.2, ?_⟩
    unfold SourcesInv at hinv ⊢
    intro aisle nk
    by_cases hA : aisle = normalizeAisle p.2.aisle
    · subst hA
      by_cases hK : nk = normalizeIngredientName p.2.name
      · subst hK
        have hcb : contributesB (normalizeAisle p.2.aisle)
            (normalizeIngredientName p.2.name) p = true := by
          simp [contributesB, hKne]
        have hone : ([p].filter (contributesB (normalizeAisle p.2.aisle)
            (normalizeIngredientName p.2.name))).map Prod.fst = [p.1] := by
          simp [List.filter, hcb]
        rw [List.filter_append, List.map_append, hone,
          dedupKeepFirst_append_singleton]
        constructor
        · intro agg heq
          rw [alGet?_alSet_self] at heq
          simp only [Option.some_bind] at heq
          rw [alGet?_alSet_self] at heq
          rw [← Option.some_inj.mp heq, applyUnit_sources]
          show addSet p.1 _ = addSet p.1 _
          congr 1
          have hold := hinv (normalizeAisle p.2.aisle)
            (normalizeIngredientName p.2.name)
          rcases hby : alGet? (normalizeAisle p.2.aisle) acc with _ | b0
          · have h0 := hold.2 (by rw [hby]; rfl)
            rw [h0]
            simp [alGet?, freshAgg, dedupKeepFirst]
          · simp only [Option.getD_some]
            rcases hbk : alGet? (normalizeIngredientName p.2.name) b0 with _ | a0
            · have h0 := hold.2 (by
                rw [hby]; simp only [Option.some_bind]; exact hbk)
              rw [h0]
              simp [freshAgg, dedupKeepFirst]
            · simp only [Option.getD_some]
              exact hold.1 a0 (by
                rw [hby]; simp only [Option.some_bind]; exact hbk)
        · intro heq
          rw [alGet?_alSet_self] at heq
          simp only [Option.some_bind] at heq
          rw [alGet?_alSet_self] at heq
          exact absurd heq (by simp)
      · have hcb : contributesB (normalizeAisle p.2.aisle) nk p = false := by
          have h2 : ¬(normalizeIngredientName p.2.name = nk) :=
            fun e => hK e.symm
          simp [contributesB, h2]
        have hfl : ((done ++ [p]).filter
            (contributesB (normalizeAisle p.2.aisle) nk)).map Prod.fst =
            (done.filter (contributesB (normalizeAisle p.2.aisle) nk)).map
              Prod.fst := by
          rw [List.filter_append]
          simp [hcb]
        rw [hfl]
        constructor
        · intro agg heq
          rw [alGet?_alSet_self] at heq
          simp only [Option.some_bind] at heq
          rw [alGet?_alSet_ne _ hK] at heq
          rcases hby : alGet? (normalizeAisle p.2.aisle) acc with _ | b0
          · rw [hby] at heq
            simp only [Option.getD_none] at heq
            exact absurd heq (by simp [alGet?])
          · rw [hby] at heq
            simp only [Option.getD_some] at heq
            exact (hinv (normalizeAisle p.2.aisle) nk).1 agg (by
              rw [hby]; simp only [Option.some_bind]; exact heq)
        · intro heq
          rw [alGet?_alSet_self] at heq
          simp only [Option.some_bind] at heq
          rw [alGet?_alSet_ne _ hK] at heq
          rcases hby : alGet? (normalizeAisle p.2.aisle) acc with _ | b0
          · exact (hinv (normalizeAisle p.2.aisle) nk).2 (by rw [hby]; rfl)
          · rw [hby] at heq
            simp only [Option.getD_some] at heq
            exact (hinv (normalizeAisle p.2.aisle) nk).2 (by
              rw [hby]; simp only [Option.some_bind]; exact heq)
    · have hcb : contributesB aisle nk p = false := by
        have h2 : ¬(normalizeAisle p.2.aisle = aisle) := fun e => hA e.symm
        simp [contributesB, h2]
      have hfl : ((done ++ [p]).filter (contributesB aisle nk)).map Prod.fst =
          (done.filter (contributesB aisle nk)).map Prod.fst := by
        rw [List.filter_append]
        simp [hcb]
      rw [hfl]
      constructor
      · intro agg heq
        rw [alGet?_alSet_ne _ hA] at heq
        exact (hinv aisle nk).1 agg heq
      · intro heq
        rw [alGet?_alSet_ne _ hA] at heq
        exact (hinv aisle nk).2 heq

theorem foldl_pairs_inv :
    ∀ (pairs : List (String × Ingredient)) (acc : AggMap)
      (done : List (String × Ingredient)),
      MapWF acc → SourcesInv done acc →
      MapWF (pairs.foldl (fun a q => processIngredient q.1 a q.2) acc) ∧
      SourcesInv (done ++ pairs)
        (pairs.foldl (fun a q => processIngredient q.1 a q.2) acc) := by
  intro pairs
  induction pairs with
  | nil =>
    intro acc done h1 h2
    simpa using ⟨h1, h2⟩
  | cons q rest ih =>
    intro acc done h1 h2
    simp only [List.foldl_cons]
    obtain ⟨h3, h4⟩ := processPair_inv q h1 h2
    have hres := ih _ (done ++ [q]) h3 h4
    simpa [List.append_assoc] using hres

theorem buildAggMap_eq_pairs (rs : List Recipe) (sel : List ℤ) :
    buildAggMap rs sel =
      (selectedPairs rs sel).foldl (fun a q => processIngredient q.1 a q.2) [] := by
  unfold buildAggMap selectedPairs
  have haux : ∀ (l : List Recipe) (acc : AggMap),
      l.foldl (fun acc2 r => r.ingredients.foldl (processIngredient r.title) acc2) acc =
      (l.foldr (fun r acc2 => r.ingredients.map (fun i => (r.title, i)) ++ acc2) []).foldl
        (fun a q => processIngredient q.1 a q.2) acc := by
    intro l
    induction l with
    | nil => intro acc; rfl
    | cons r rest ih =>
      intro acc
      simp only [List.foldl_cons, List.foldr_cons, List.foldl_append]
      rw [ih]
      congr 1
      rw [List.foldl_map]
  exact haux _ []

theorem buildAggMap_invariants (rs : List Recipe) (sel : List ℤ) :
    MapWF (buildAggMap rs sel) ∧
    SourcesInv (selectedPairs rs sel) (buildAggMap rs sel) := by
  rw [buildAggMap_eq_pairs]
  have h0 : MapWF ([] : AggMap) := ⟨List.nodup_nil, by simp⟩
  have h1 : SourcesInv [] ([] : AggMap) := by
    unfold SourcesInv
    intro aisle nk
    simp [alGet?]
  simpa using foldl_pairs_inv (selectedPairs rs sel) [] [] h0 h1

theorem emitName_sources {aisle nk : String} {agg : Agg}
    {q : String × DisplayRow} (h : q ∈ emitName aisle nk agg) :
    q.2.sources = sortStrings agg.sources := by
  simp only [emitName] at h
  rcases List.mem_append.mp h with h5 | h6
  · rcases List.mem_append.mp h5 with h7 | h8
    · rcases List.mem_append.mp h7 with h9 | h10
      · split at h9
        · rw [List.mem_singleton.mp h9]
        · exact absurd h9 (by simp)
      · split at h10
        · rw [List.mem_singleton.mp h10]
        · exact absurd h10 (by simp)
    · split at h8
      · rw [List.mem_singleton.mp h8]
      · exact absurd h8 (by simp)
  · rw [List.mem_map] at h6
    obtain ⟨e, he, heq⟩ := h6
    rw [← heq]

/-! ### Splitting the composite row keys at the first pipe -/

theorem string_toList_append (a b : String) :
    (a ++ b).toList = a.toList ++ b.toList := rfl

theorem string_toList_inj {a b : String} (h : a.toList = b.toList) : a = b := by
  cases a
  cases b
  simp only [String.toList] at h
  rw [h]

theorem string_append_assoc (a b c : String) : a ++ b ++ c = a ++ (b ++ c) :=
  string_toList_inj (by simp [string_toList_append])

theorem takeWhile_append_cons {p : Char → Bool} {c : Char} (ys : List Char) :
    ∀ {xs : List Char}, (∀ x ∈ xs, p x = true) → p c = false →
      (xs ++ c :: ys).takeWhile p = xs := by
  intro xs
  induction xs with
  | nil => intro _ h2; simp [List.takeWhile, h2]
  | cons x rest ih =>
    intro h1 h2
    simp only [List.cons_append, List.takeWhile]
    rw [h1 x (List.mem_cons_self x rest)]
    simp only [List.append_eq]
    rw [ih (fun y hy => h1 y (List.mem_cons_of_mem x hy)) h2]

/-- A composite key splits uniquely at the first pipe: if the name parts
are pipe-free and the remainders start with a pipe, equal keys have
equal parts. -/
theorem key_split {n1 n2 r1 r2 : String} {t1 t2 : List Char}
    (hp1 : ¬ '|' ∈ n1.toList) (hp2 : ¬ '|' ∈ n2.toList)
    (hr1 : r1.toList = '|' :: t1) (hr2 : r2.toList = '|' :: t2)
    (h : n1 ++ r1 = n2 ++ r2) : n1 = n2 ∧ r1 = r2 := by
  have hl := congrArg String.toList h
  rw [string_toList_append, string_toList_append, hr1, hr2] at hl
  have hq1 : ∀ x ∈ n1.toList, (fun c : Char => !(c == '|')) x = true := by
    intro x hx
    by_cases hxe : x = '|'
    · exact absurd (hxe ▸ hx) hp1
    · simp [hxe]
  have hq2 : ∀ x ∈ n2.toList, (fun c : Char => !(c == '|')) x = true := by
    intro x hx
    by_cases hxe : x = '|'
    · exact absurd (hxe ▸ hx) hp2
    · simp [hxe]
  have ht1 : (n1.toList ++ '|' :: t1).takeWhile (fun c : Char => !(c == '|')) =
      n1.toList := takeWhile_append_cons t1 hq1 (by simp)
  have ht2 : (n2.toList ++ '|' :: t2).takeWhile (fun c : Char => !(c == '|')) =
      n2.toList := takeWhile_append_cons t2 hq2 (by simp)
  have hn : n1.toList = n2.toList := by
    rw [← ht1, ← ht2, hl]
  refine ⟨string_toList_inj hn, ?_⟩
  rw [hn] at hl
  have ht := List.append_cancel_left hl
  exact string_toList_inj (by rw [hr1, hr2]; exact ht)

theorem toList_pipe_count :
    ("|count" : String).toList = '|' :: ['c', 'o', 'u', 'n', 't'] := by decide

theorem toList_pipe_volume :
    ("|volume" : String).toList = '|' :: ['v', 'o', 'l', 'u', 'm', 'e'] := by
  decide

theorem toList_pipe_weight :
    ("|weight" : String).toList = '|' :: ['w', 'e', 'i', 'g', 'h', 't'] := by
  decide

theorem toList_pipe_unknown (u : String) :
    ("|unknown|" ++ u).toList =
      '|' :: (['u', 'n', 'k', 'n', 'o', 'w', 'n', '|'] ++ u.toList) := by
  rw [string_toList_append]
  have hh : ("|unknown|" : String).toList =
      ['|', 'u', 'n', 'k', 'n', 'o', 'w', 'n', '|'] := by decide
  rw [hh]
  rfl

theorem runknown_ne_count (u : String) : ¬"|unknown|" ++ u = "|count" := by
  intro h
  have hl := congrArg String.toList h
  rw [toList_pipe_unknown, toList_pipe_count] at hl
  simp at hl

theorem runknown_ne_volume (u : String) : ¬"|unknown|" ++ u = "|volume" := by
  intro h
  have hl := congrArg String.toList h
  rw [toList_pipe_unknown, toList_pipe_volume] at hl
  simp at hl

theorem runknown_ne_weight (u : String) : ¬"|unknown|" ++ u = "|weight" := by
  intro h
  have hl := congrArg String.toList h
  rw [toList_pipe_unknown, toList_pipe_weight] at hl
  simp at hl

theorem runknown_inj {u1 u2 : String}
    (h : "|unknown|" ++ u1 = "|unknown|" ++ u2) : u1 = u2 := by
  have hl := congrArg String.toList h
  rw [string_toList_append, string_toList_append] at hl
  exact string_toList_inj (List.append_cancel_left hl)

/-! ### Key membership along the emission pipeline -/

theorem mem_ite_singleton {α : Type} {k y : α} {c : Prop} [Decidable c] :
    k ∈ (if c then [y] else ([] : List α)) ↔ c ∧ k = y := by
  split
  case isTrue h =>
    constructor
    · intro hm
      exact ⟨h, List.mem_singleton.mp hm⟩
    · intro hm
      exact List.mem_singleton.mpr hm.2
  case isFalse h =>
    constructor
    · intro hm
      exact absurd hm (by simp)
    · intro hm
      exact absurd hm.1 h

theorem mem_keysOf_alSet {α : Type} {k k2 : String} {v : α}
    {m : List (String × α)} :
    k ∈ keysOf (alSet k2 v m) ↔ k = k2 ∨ k ∈ keysOf m := by
  rw [keysOf_alSet]
  split
  case isTrue hm =>
    constructor
    · intro h
      exact Or.inr h
    · intro h
      rcases h with he | h
      · rwa [he]
      · exact h
  case isFalse hm =>
    rw [List.mem_append, List.mem_singleton]
    constructor
    · intro h
      rcases h with h | h
      · exact Or.inr h
      · exact Or.inl h
    · intro h
      rcases h with h | h
      · exact Or.inr h
      · exact Or.inl h

theorem mem_keys_foldl_alSet {α : Type} {k : String} :
    ∀ (l acc : List (String × α)),
      k ∈ keysOf (l.foldl (fun m kv => alSet kv.1 kv.2 m) acc) ↔
        (∃ kv ∈ l, k = kv.1) ∨ k ∈ keysOf acc := by
  intro l
  induction l with
  | nil =>
    intro acc
    simp
  | cons kv rest ih =>
    intro acc
    simp only [List.foldl_cons]
    rw [ih, mem_keysOf_alSet]
    simp only [List.mem_cons]
    constructor
    · rintro (⟨kv2, h2, he⟩ | he | hm)
      · exact Or.inl ⟨kv2, Or.inr h2, he⟩
      · exact Or.inl ⟨kv, Or.inl rfl, he⟩
      · exact Or.inr hm
    · rintro (⟨kv2, h2 | h2, he⟩ | hm)
      · exact Or.inr (Or.inl (h2 ▸ he))
      · exact Or.inl ⟨kv2, h2, he⟩
      · exact Or.inr (Or.inr hm)

theorem self_mem_insertByKey {α : Type} (p : String × α) :
    ∀ (l : List (String × α)), p ∈ insertByKey p l := by
  intro l
  induction l with
  | nil => simp [insertByKey]
  | cons x xs ih =>
    simp only [insertByKey]
    split
    · exact List.mem_cons_self p (x :: xs)
    · exact List.mem_cons_of_mem x ih

theorem mem_insertByKey_of_mem {α : Type} {q : String × α} (p : String × α) :
    ∀ {l : List (String × α)}, q ∈ l → q ∈ insertByKey p l := by
  intro l
  induction l with
  | nil => intro h; exact absurd h (by simp)
  | cons x xs ih =>
    intro h
    simp only [insertByKey]
    split
    · exact List.mem_cons_of_mem p h
    · rcases List.mem_cons.mp h with he | hm
      · exact he ▸ List.mem_cons_self x (insertByKey p xs)
      · exact List.mem_cons_of_mem x (ih hm)

theorem mem_sortByKey_of_mem {α : Type} {q : String × α} :
    ∀ {l : List (String × α)}, q ∈ l → q ∈ sortByKey l := by
  intro l
  induction l with
  | nil => intro h; exact absurd h (by simp)
  | cons x xs ih =>
    intro h
    simp only [sortByKey, List.foldr_cons]
    rcases List.mem_cons.mp h with he | hm
    · exact he ▸ self_mem_insertByKey x (sortByKey xs)
    · exact mem_insertByKey_of_mem x (ih hm)

theorem mem_keys_aisleRows {aisle k : String} {byName : List (String × Agg)} :
    k ∈ keysOf (aisleRows aisle byName) ↔
      ∃ b ∈ byName, k ∈ keysOf (emitName aisle b.1 b.2) := by
  have haux : ∀ (bl : List (String × Agg)) (acc : List (String × DisplayRow)),
      k ∈ keysOf (bl.foldl
        (fun m p => (emitName aisle p.1 p.2).foldl
          (fun m2 kv => alSet kv.1 kv.2 m2) m) acc) ↔
      (∃ b ∈ bl, k ∈ keysOf (emitName aisle b.1 b.2)) ∨ k ∈ keysOf acc := by
    intro bl
    induction bl with
    | nil =>
      intro acc
      simp
    | cons b rest ih =>
      intro acc
      simp only [List.foldl_cons]
      rw [ih, mem_keys_foldl_alSet]
      simp only [List.mem_cons, keysOf, List.mem_map]
      constructor
      · rintro (⟨b2, h2, he⟩ | ⟨kv, hkv, he⟩ | hm)
        · exact Or.inl ⟨b2, Or.inr h2, he⟩
        · exact Or.inl ⟨b, Or.inl rfl, ⟨kv, hkv, he.symm⟩⟩
        · exact Or.inr hm
      · rintro (⟨b2, h2 | h2, he⟩ | hm)
        · subst h2
          obtain ⟨kv, hkv, he2⟩ := he
          exact Or.inr (Or.inl ⟨kv, hkv, he2.symm⟩)
        · exact Or.inl ⟨b2, h2, he⟩
        · exact Or.inr (Or.inr hm)
  unfold aisleRows
  rw [haux]
  constructor
  · rintro (⟨b, hb, he⟩ | hm)
    · exact ⟨b, mem_sortByKey hb, he⟩
    · exact absurd hm (by simp [keysOf])
  · rintro ⟨b, hb, he⟩
    exact Or.inl ⟨b, mem_sortByKey_of_mem hb, he⟩

theorem mem_keys_emitName {aisle nk k : String} {agg : Agg} :
    k ∈ keysOf (emitName aisle nk agg) ↔
      (k = nk ++ "|count" ∧ ¬agg.countTotal = 0) ∨
      (k = nk ++ "|volume" ∧ ¬agg.volumeMlTotal = 0) ∨
      (k = nk ++ "|weight" ∧ ¬agg.weightGTotal = 0) ∨
      (∃ e ∈ agg.unknownTotals,
        k = nk ++ "|unknown|" ++ (if e.1 = "" then "unitless" else e.1)) := by
  simp only [emitName, keysOf, List.map_append, List.mem_append,
    apply_ite (List.map (Prod.fst : String × DisplayRow → String)),
    List.map_cons, List.map_nil, List.map_map, mem_ite_singleton,
    List.mem_map, Function.comp]
  constructor
  · rintro (((⟨hc, he⟩ | ⟨hc, he⟩) | ⟨hc, he⟩) | ⟨e, he, hk⟩)
    · exact Or.inl ⟨he, hc⟩
    · exact Or.inr (Or.inl ⟨he, hc⟩)
    · exact Or.inr (Or.inr (Or.inl ⟨he, hc⟩))
    · exact Or.inr (Or.inr (Or.inr ⟨e, he, hk.symm⟩))
  · rintro (⟨he, hc⟩ | ⟨he, hc⟩ | ⟨he, hc⟩ | ⟨e, he, hk⟩)
    · exact Or.inl (Or.inl (Or.inl ⟨hc, he⟩))
    · exact Or.inl (Or.inl (Or.inr ⟨hc, he⟩))
    · exact Or.inl (Or.inr ⟨hc, he⟩)
    · exact Or.inr ⟨e, he, hk.symm⟩

/-! ### The key-provenance invariant of the accumulation phase -/

theorem processPair_keysProv {acc : AggMap} {done : List (String × Ingredient)}
    (p : String × Ingredient) (h : KeysProv done acc) :
    KeysProv (done ++ [p]) (processIngredient p.1 acc p.2) := by
  have hweak : ∀ q, q ∈ done → q ∈ done ++ [p] := by
    intro q hq
    exact List.mem_append.mpr (Or.inl hq)
  unfold KeysProv at h ⊢
  simp only [processIngredient]
  split
  · intro a ha b hb
    obtain ⟨q, hq, he⟩ := h a ha b hb
    exact ⟨q, hweak q hq, he⟩
  · intro a ha b hb
    rcases mem_alSet ha with hea | hma
    · rw [hea] at hb
      rcases mem_alSet hb with heb | hmb
      · refine ⟨p, List.mem_append.mpr (Or.inr (by simp)), ?_⟩
        rw [heb]
      · rcases hby : alGet? (normalizeAisle p.2.aisle) acc with _ | b0
        · rw [hby] at hmb
          exact absurd hmb (by simp)
        · rw [hby] at hmb
          simp only [Option.getD_some] at hmb
          obtain ⟨q, hq, he⟩ := h _ (alGet?_mem hby) b hmb
          exact ⟨q, hweak q hq, he⟩
    · obtain ⟨q, hq, he⟩ := h a hma b hb
      exact ⟨q, hweak q hq, he⟩

theorem foldl_pairs_keysProv :
    ∀ (pairs : List (String × Ingredient)) (acc : AggMap)
      (done : List (String × Ingredient)),
      KeysProv done acc →
      KeysProv (done ++ pairs)
        (pairs.foldl (fun a q => processIngredient q.1 a q.2) acc) := by
  intro pairs
  induction pairs with
  | nil =>
    intro acc done h
    simpa using h
  | cons q rest ih =>
    intro acc done h
    simp only [List.foldl_cons]
    have hres := ih _ (done ++ [q]) (processPair_keysProv q h)
    simpa [List.append_assoc] using hres

theorem buildAggMap_keysProv (rs : List Recipe) (sel : List ℤ) :
    KeysProv (selectedPairs rs sel) (buildAggMap rs sel) := by
  rw [buildAggMap_eq_pairs]
  have h0 : KeysProv [] ([] : AggMap) := by
    unfold KeysProv
    simp
  simpa using foldl_pairs_keysProv (selectedPairs rs sel) [] [] h0

/-! ### Theorems for the concrete claims -/

/-- Claim C10: the parser never returns a negative value, since token
stripping removes every minus sign and each surviving token contributes
a non-negative amount; consequently every accumulated family total in
every bucket and the quantity of every emitted row are non-negative. -/
theorem c10_nonnegativity :
    (∀ s : String, 0 ≤ parseQuantityToNumber s) ∧
    (∀ (rs : List Recipe) (sel : List ℤ), ∀ a ∈ buildAggMap rs sel,
      ∀ b ∈ a.2, AggNN b.2) ∧
    (∀ (rs : List Recipe) (sel : List ℤ), ∀ a ∈ generateGroceryList rs sel,
      ∀ b ∈ a.2, 0 ≤ b.2.quantity) := by
  refine ⟨parseQuantityToNumber_nonneg, buildAggMap_NN, ?_⟩
  intro rs sel a ha b hb
  obtain ⟨p, hp, he⟩ := mem_generateGroceryList ha
  rw [he] at hb
  simp only at hb
  obtain ⟨p2, hp2, he2⟩ := mem_aisleRows hb
  exact emitName_quantity_nonneg (buildAggMap_NN rs sel p hp p2 hp2) he2

/-- Witness for C10: the parser value of a concrete string and the
quantity of a concrete emitted row are non-negative. -/
theorem c10_nonnegativity_witness :
    0 ≤ parseQuantityToNumber "1-2 1/2" ∧
    0 ≤ (DisplayRow.mk (5 / 2) "cup" "Baking" "flour" ["A", "B"]).quantity :=
  ⟨c10_nonnegativity.1 "1-2 1/2",
   c10_nonnegativity.2.2
     [⟨1, "A", [⟨"flour", "2", "cups", "Baking"⟩]⟩,
      ⟨2, "B", [⟨"Flour", "1/2", "cup", "baking"⟩]⟩] [1, 2]
     ("Baking", [("flour|volume", ⟨5 / 2, "cup", "Baking", "flour", ["A", "B"]⟩)])
     (by decide)
     ("flour|volume", ⟨5 / 2, "cup", "Baking", "flour", ["A", "B"]⟩)
     (by decide)⟩

/-- Claim C1: the three engine entry points are total functions of
their string inputs: every input, however malformed, yields a value.
The parser returns 0 for the empty string, and for every non-numeric
string, one without ASCII digits and without vulgar-fraction
characters, it returns 0: no stage of the pipeline can conjure a digit
from anything else, so every token contributes nothing. -/
theorem c1_totality_and_default :
    (∀ s : String, ∃ q : ℚ, parseQuantityToNumber s = q) ∧
    (∀ u : String, ∃ i : UnitInfo, getUnitInfo u = i) ∧
    (∀ (rs : List Recipe) (sel : List ℤ),
      ∃ out, generateGroceryList rs sel = out) ∧
    parseQuantityToNumber "" = 0 ∧
    (∀ s : String, (∀ c ∈ s.toList, numericSeed c = false) →
      parseQuantityToNumber s = 0) := by
  refine ⟨fun s => ⟨_, rfl⟩, fun u => ⟨_, rfl⟩, fun rs sel => ⟨_, rfl⟩, rfl, ?_⟩
  intro s hs
  unfold parseQuantityToNumber
  split
  · rfl
  · exact parseQuantityChars_of_non_numeric hs

/-- Witness for C1 on a concrete adversarial non-numeric string. -/
theorem c1_totality_and_default_witness :
    parseQuantityToNumber "about ~ a knob of butter, plus more." = 0 :=
  c1_totality_and_default.2.2.2.2 "about ~ a knob of butter, plus more."
    (by decide)

/-- Claim C5: the quantity parser returns the reference values: 0 for
the empty and the all-blank string, 2 for a plain integer, one half for
an ASCII fraction, five halves for a mixed number, three halves for a
digit with an attached vulgar fraction, one half after stripping the
qualifier word, and the first bound of a numeric range. -/
theorem c5_parser_reference_values :
    parseQuantityToNumber "" = 0 ∧
    parseQuantityToNumber "   " = 0 ∧
    parseQuantityToNumber "2" = 2 ∧
    parseQuantityToNumber "1/2" = 1 / 2 ∧
    parseQuantityToNumber "2 1/2" = 5 / 2 ∧
    parseQuantityToNumber "1½" = 3 / 2 ∧
    parseQuantityToNumber "about 1/2" = 1 / 2 ∧
    parseQuantityToNumber "1-2" = 1 := by
  decide

/-- Claim C6: the classifier sends tbsp, Tablespoons and TABLESPOON.
with a trailing period to one and the same descriptor of the volume
family with canonical unit tbsp; the empty unit is a count with factor
one; an unrecognized unit is unknown with the normalized string as its
canonical unit. -/
theorem c6_classifier_aliases :
    getUnitInfo "tbsp" = getUnitInfo "Tablespoons" ∧
    getUnitInfo "Tablespoons" = getUnitInfo "TABLESPOON." ∧
    (getUnitInfo "tbsp").kind = .volume ∧
    (getUnitInfo "tbsp").canonicalUnit = "tbsp" ∧
    (getUnitInfo "").kind = .count ∧
    (getUnitInfo "").toBaseFactor = some 1 ∧
    (getUnitInfo "xyz").kind = .unknown ∧
    (getUnitInfo "xyz").canonicalUnit = "xyz" := by
  decide

/-- Claim C9: the two flour recipes aggregate, under the single Baking
aisle, to exactly one volume row with the first-seen raw name, quantity
five halves, unit cup and the sorted source titles. -/
theorem c9_flour_scenario :
    generateGroceryList
      [⟨1, "A", [⟨"flour", "2", "cups", "Baking"⟩]⟩,
       ⟨2, "B", [⟨"Flour", "1/2", "cup", "baking"⟩]⟩] [1, 2] =
    [("Baking",
      [("flour|volume", ⟨5 / 2, "cup", "Baking", "flour", ["A", "B"]⟩)])] := by
  decide

/-- Claim C2 is refuted here: a single line with an empty quantity and
an unknown unit accumulates a zero total for its label, yet the run
still emits a row for it with quantity zero, so a zero total does not
prevent emission for the unknown family. -/
theorem c2_counterexample :
    buildAggMap [⟨1, "R", [⟨"pepper", "", "knob", ""⟩]⟩] [1] =
      [("Other", [("pepper", ⟨"pepper", ["R"], 0, 0, 0, [], [], [("knob", 0)]⟩)])] ∧
    generateGroceryList [⟨1, "R", [⟨"pepper", "", "knob", ""⟩]⟩] [1] =
      [("Other", [("pepper|unknown|knob", ⟨0, "knob", "Other", "pepper", ["R"]⟩)])] := by
  decide

/-- Claim C2, amended: in any run whose normalized ingredient names are
free of the pipe character, a bucket's count, volume or weight row is
present in the bucket's aisle of the output exactly when the matching
accumulated total is non-zero, while an unknown-unit row is present
exactly when its label exists in the bucket — even with a zero total. -/
theorem c2_amended_row_presence (rs : List Recipe) (sel : List ℤ)
    (hpf : ∀ p ∈ selectedPairs rs sel,
      ¬ '|' ∈ (normalizeIngredientName p.2.name).toList)
    (aisle nk : String) (agg : Agg) (rows : List (String × DisplayRow))
    (hlk : (alGet? aisle (buildAggMap rs sel)).bind (alGet? nk) = some agg)
    (hrows : alGet? aisle (generateGroceryList rs sel) = some rows) :
    ((nk ++ "|count") ∈ keysOf rows ↔ ¬agg.countTotal = 0) ∧
    ((nk ++ "|volume") ∈ keysOf rows ↔ ¬agg.volumeMlTotal = 0) ∧
    ((nk ++ "|weight") ∈ keysOf rows ↔ ¬agg.weightGTotal = 0) ∧
    ∀ u : String,
      ((nk ++ "|unknown|" ++ u) ∈ keysOf rows ↔
        u ∈ keysOf agg.unknownTotals) := by
  obtain ⟨hWF, _⟩ := buildAggMap_invariants rs sel
  have hKP := buildAggMap_keysProv rs sel
  unfold KeysProv at hKP
  rcases hby : alGet? aisle (buildAggMap rs sel) with _ | byName
  · rw [hby] at hlk
    exact absurd hlk (by simp)
  rw [hby] at hlk
  simp only [Option.some_bind] at hlk
  obtain ⟨p, hp, he⟩ := mem_generateGroceryList (alGet?_mem hrows)
  rw [Prod.mk.injEq] at he
  have hp2 : alGet? aisle (buildAggMap rs sel) = some p.2 := by
    rw [he.1]
    exact alGet?_eq_some_of_mem hWF.1 hp
  have hbyeq : p.2 = byName := Option.some_inj.mp (hp2.symm.trans hby)
  have hrows2 : rows = aisleRows aisle byName := by
    rw [he.2, ← he.1, hbyeq]
  have hbmem : (aisle, byName) ∈ buildAggMap rs sel := alGet?_mem hby
  have hbprops := hWF.2 _ hbmem
  have hndB : (keysOf byName).Nodup := hbprops.1
  have hpfB : ∀ b ∈ byName, ¬ '|' ∈ b.1.toList := by
    intro b hb
    obtain ⟨q, hq, heq⟩ := hKP _ hbmem b hb
    rw [← heq]
    exact hpf q hq
  have hnkmem : (nk, agg) ∈ byName := alGet?_mem hlk
  have hpfnk : ¬ '|' ∈ nk.toList := hpfB (nk, agg) hnkmem
  have haggprops := hbprops.2 (nk, agg) hnkmem
  have hbagg : ∀ b ∈ byName, b.1 = nk → b.2 = agg := by
    intro b hb hb1
    have h1 : alGet? nk byName = some b.2 := by
      rw [← hb1]
      exact alGet?_eq_some_of_mem hndB hb
    rw [hlk] at h1
    exact (Option.some_inj.mp h1).symm
  rw [hrows2]
  refine ⟨?_, ?_, ?_, ?_⟩
  · rw [mem_keys_aisleRows]
    constructor
    · rintro ⟨b, hb, hkb⟩
      rw [mem_keys_emitName] at hkb
      rcases hkb with ⟨hk, hc⟩ | ⟨hk, hc⟩ | ⟨hk, hc⟩ | ⟨e, hee, hk⟩
      · obtain ⟨hn, hr⟩ := key_split hpfnk (hpfB b hb) toList_pipe_count
          toList_pipe_count hk
        rw [← hbagg b hb hn.symm]
        exact hc
      · obtain ⟨hn, hr⟩ := key_split hpfnk (hpfB b hb) toList_pipe_count
          toList_pipe_volume hk
        exact absurd hr (by decide)
      · obtain ⟨hn, hr⟩ := key_split hpfnk (hpfB b hb) toList_pipe_count
          toList_pipe_weight hk
        exact absurd hr (by decide)
      · rw [string_append_assoc] at hk
        obtain ⟨hn, hr⟩ := key_split hpfnk (hpfB b hb) toList_pipe_count
          (toList_pipe_unknown _) hk
        exact absurd hr.symm (runknown_ne_count _)
    · intro hc
      exact ⟨(nk, agg), hnkmem, mem_keys_emitName.mpr (Or.inl ⟨rfl, hc⟩)⟩
  · rw [mem_keys_aisleRows]
    constructor
    · rintro ⟨b, hb, hkb⟩
      rw [mem_keys_emitName] at hkb
      rcases hkb with ⟨hk, hc⟩ | ⟨hk, hc⟩ | ⟨hk, hc⟩ | ⟨e, hee, hk⟩
      · obtain ⟨hn, hr⟩ := key_split hpfnk (hpfB b hb) toList_pipe_volume
          toList_pipe_count hk
        exact absurd hr (by decide)
      · obtain ⟨hn, hr⟩ := key_split hpfnk (hpfB b hb) toList_pipe_volume
          toList_pipe_volume hk
        rw [← hbagg b hb hn.symm]
        exact hc
      · obtain ⟨hn, hr⟩ := key_split hpfnk (hpfB b hb) toList_pipe_volume
          toList_pipe_weight hk
        exact absurd hr (by decide)
      · rw [string_append_assoc] at hk
        obtain ⟨hn, hr⟩ := key_split hpfnk (hpfB b hb) toList_pipe_volume
          (toList_pipe_unknown _) hk
        exact absurd hr.symm (runknown_ne_volume _)
    · intro hc
      exact ⟨(nk, agg), hnkmem,
        mem_keys_emitName.mpr (Or.inr (Or.inl ⟨rfl, hc⟩))⟩
  · rw [mem_keys_aisleRows]
    constructor
    · rintro ⟨b, hb, hkb⟩
      rw [mem_keys_emitName] at hkb
      rcases hkb with ⟨hk, hc⟩ | ⟨hk, hc⟩ | ⟨hk, hc⟩ | ⟨e, hee, hk⟩
      · obtain ⟨hn, hr⟩ := key_split hpfnk (hpfB b hb) toList_pipe_weight
          toList_pipe_count hk
        exact absurd hr (by decide)
      · obtain ⟨hn, hr⟩ := key_split hpfnk (hpfB b hb) toList_pipe_weight
          toList_pipe_volume hk
        exact absurd hr (by decide)
      · obtain ⟨hn, hr⟩ := key_split hpfnk (hpfB b hb) toList_pipe_weight
          toList_pipe_weight hk
        rw [← hbagg b hb hn.symm]
        exact hc
      · rw [string_append_assoc] at hk
        obtain ⟨hn, hr⟩ := key_split hpfnk (hpfB b hb) toList_pipe_weight
          (toList_pipe_unknown _) hk
        exact absurd hr.symm (runknown_ne_weight _)
    · intro hc
      exact ⟨(nk, agg), hnkmem,
        mem_keys_emitName.mpr (Or.inr (Or.inr (Or.inl ⟨rfl, hc⟩)))⟩
  · intro u
    rw [mem_keys_aisleRows]
    constructor
    · rintro ⟨b, hb, hkb⟩
      rw [mem_keys_emitName] at hkb
      rcases hkb with ⟨hk, hc⟩ | ⟨hk, hc⟩ | ⟨hk, hc⟩ | ⟨e, hee, hk⟩
      · rw [string_append_assoc] at hk
        obtain ⟨hn, hr⟩ := key_split hpfnk (hpfB b hb)
          (toList_pipe_unknown u) toList_pipe_count hk
        exact absurd hr (runknown_ne_count u)
      · rw [string_append_assoc] at hk
        obtain ⟨hn, hr⟩ := key_split hpfnk (hpfB b hb)
          (toList_pipe_unknown u) toList_pipe_volume hk
        exact absurd hr (runknown_ne_volume u)
      · rw [string_append_assoc] at hk
        obtain ⟨hn, hr⟩ := key_split hpfnk (hpfB b hb)
          (toList_pipe_unknown u) toList_pipe_weight hk
        exact absurd hr (runknown_ne_weight u)
      · rw [string_append_assoc, string_append_assoc] at hk
        obtain ⟨hn, hr⟩ := key_split hpfnk (hpfB b hb)
          (toList_pipe_unknown u) (toList_pipe_unknown _) hk
        have hlabne := (hbprops.2 b hb).2 e hee
        have hu : u = e.1 := by
          have h2 := runknown_inj hr
          rwa [if_neg hlabne] at h2
        rw [hu, ← hbagg b hb hn.symm]
        exact List.mem_map_of_mem Prod.fst hee
    · intro hu
      simp only [keysOf, List.mem_map] at hu
      obtain ⟨e, hee, heq⟩ := hu
      refine ⟨(nk, agg), hnkmem,
        mem_keys_emitName.mpr (Or.inr (Or.inr (Or.inr ⟨e, hee, ?_⟩)))⟩
      have hlabne := haggprops.2 e hee
      rw [if_neg hlabne, heq]

theorem c2_amended_row_presence_witness :
    ((("pepper" ++ "|count") ∈
        keysOf [("pepper|count",
          (⟨2, "", "Other", "pepper", ["R"]⟩ : DisplayRow)),
         ("pepper|unknown|knob",
          (⟨0, "knob", "Other", "pepper", ["R"]⟩ : DisplayRow))] ↔
      ¬(2 : ℚ) = 0) ∧
     (("pepper" ++ "|volume") ∈
        keysOf [("pepper|count",
          (⟨2, "", "Other", "pepper", ["R"]⟩ : DisplayRow)),
         ("pepper|unknown|knob",
          (⟨0, "knob", "Other", "pepper", ["R"]⟩ : DisplayRow))] ↔
      ¬(0 : ℚ) = 0) ∧
     (("pepper" ++ "|unknown|" ++ "knob") ∈
        keysOf [("pepper|count",
          (⟨2, "", "Other", "pepper", ["R"]⟩ : DisplayRow)),
         ("pepper|unknown|knob",
          (⟨0, "knob", "Other", "pepper", ["R"]⟩ : DisplayRow))] ↔
      "knob" ∈ keysOf [(("knob" : String), (0 : ℚ))])) :=
  have h := c2_amended_row_presence
    [⟨1, "R", [⟨"pepper", "", "knob", ""⟩, ⟨"pepper", "2", "", ""⟩]⟩] [1]
    (by decide) "Other" "pepper"
    ⟨"pepper", ["R"], 2, 0, 0, [], [], [("knob", 0)]⟩
    [("pepper|count", ⟨2, "", "Other", "pepper", ["R"]⟩),
     ("pepper|unknown|knob", ⟨0, "knob", "Other", "pepper", ["R"]⟩)]
    (by decide) (by decide)
  ⟨h.1, h.2.1, h.2.2.2 "knob"⟩

/-- Claim C3 is refuted here: the unit strings knob and Knob. normalize
to the same label, yet the two lines do not merge: the run produces two
separate unknown rows, keyed and displayed by the raw unit strings. -/
theorem c3_counterexample :
    normalizeUnitString "knob" = "knob" ∧
    normalizeUnitString "Knob." = "knob" ∧
    generateGroceryList
      [⟨1, "A", [⟨"butter", "1", "knob", ""⟩]⟩,
       ⟨2, "B", [⟨"butter", "2", "Knob.", ""⟩]⟩] [1, 2] =
    [("Other",
      [("butter|unknown|knob", ⟨1, "knob", "Other", "butter", ["A", "B"]⟩),
       ("butter|unknown|Knob.", ⟨2, "Knob.", "Other", "butter", ["A", "B"]⟩)])] := by
  decide

/-- Claim C3 amended: two ingredient lines of the same name and aisle
whose units both classify as Unknown accumulate into the same bucket if
and only if their raw unit strings are identical, and each emitted
unknown row displays the raw unit string; units that differ only by
case or a trailing period stay in separate rows. -/
theorem c3_amended_unknown_merge (u1 u2 : String)
    (h1 : (getUnitInfo u1).kind = .unknown)
    (h2 : (getUnitInfo u2).kind = .unknown) :
    generateGroceryList
      [⟨1, "A", [⟨"butter", "1", u1, ""⟩]⟩,
       ⟨2, "B", [⟨"butter", "2", u2, ""⟩]⟩] [1, 2] =
    [("Other",
      if u1 = u2 then
        [("butter" ++ "|unknown|" ++ u1, ⟨3, u1, "Other", "butter", ["A", "B"]⟩)]
      else
        [("butter" ++ "|unknown|" ++ u1, ⟨1, u1, "Other", "butter", ["A", "B"]⟩),
         ("butter" ++ "|unknown|" ++ u2, ⟨2, u2, "Other", "butter", ["A", "B"]⟩)])] := by
  obtain ⟨hc1, hne1⟩ := getUnitInfo_unknown_char h1
  obtain ⟨hc2, hne2⟩ := getUnitInfo_unknown_char h2
  have hp1 : parseQuantityToNumber "1" = 1 := by decide
  have hp2 : parseQuantityToNumber "2" = 2 := by decide
  have hna : normalizeAisle "" = "Other" := by decide
  have hnb : normalizeIngredientName "butter" = "butter" := by decide
  have hid1 : (([1, 2] : List ℤ).contains 1) = true := by decide
  have hid2 : (([1, 2] : List ℤ).contains 2) = true := by decide
  have htr : jsTrim "butter" = "butter" := by decide
  have hb1 : ("butter" = "") = False := by simp
  have hb2 : ("B" = "A") = False := by simp
  have hsort : sortStrings ["A", "B"] = ["A", "B"] := by decide
  by_cases he : u1 = u2
  · subst he
    rw [if_pos rfl]
    have hbuild : buildAggMap
        [⟨1, "A", [⟨"butter", "1", u1, ""⟩]⟩,
         ⟨2, "B", [⟨"butter", "2", u1, ""⟩]⟩] [1, 2] =
        [("Other", [("butter", ⟨"butter", ["A", "B"], 0, 0, 0, [], [], [(u1, 3)]⟩)])] := by
      simp only [buildAggMap, List.filter_cons, List.filter_nil, hid1, hid2,
        if_true, List.foldl_cons, List.foldl_nil, processIngredient, applyUnit,
        bumpBucket, alGet?, alSet, addSet, freshAgg, hp1, hp2, hna, hnb, hc1,
        Option.getD_none, Option.getD_some]
      simp only [htr, hb1, hb2, if_false]
      norm_num
      decide
    have hrows : aisleRows "Other"
        [("butter", ⟨"butter", ["A", "B"], 0, 0, 0, [], [], [(u1, 3)]⟩)] =
        [("butter" ++ "|unknown|" ++ u1, ⟨3, u1, "Other", "butter", ["A", "B"]⟩)] := by
      simp only [aisleRows, sortByKey, List.foldr_cons, List.foldr_nil, insertByKey,
        List.foldl_cons, List.foldl_nil, emitName, List.map_cons, List.map_nil,
        alSet, hsort]
      simp [hne1, alSet]
    simp only [generateGroceryList, hbuild, List.foldl_cons, List.foldl_nil, hrows, alSet]
  · have he2s : (u2 = u1) = False := eq_false (fun e => he e.symm)
    have hkne : (("butter|unknown|" ++ u2 : String) = "butter|unknown|" ++ u1) = False :=
      eq_false (fun e => he (stringAppend_cancel_left e).symm)
    rw [if_neg he]
    have hbuild : buildAggMap
        [⟨1, "A", [⟨"butter", "1", u1, ""⟩]⟩,
         ⟨2, "B", [⟨"butter", "2", u2, ""⟩]⟩] [1, 2] =
        [("Other", [("butter", ⟨"butter", ["A", "B"], 0, 0, 0, [], [],
          [(u1, 1), (u2, 2)]⟩)])] := by
      simp only [buildAggMap, List.filter_cons, List.filter_nil, hid1, hid2,
        if_true, List.foldl_cons, List.foldl_nil, processIngredient, applyUnit,
        bumpBucket, alGet?, alSet, addSet, freshAgg, hp1, hp2, hna, hnb, hc1, hc2, he2s,
        Option.getD_none, Option.getD_some]
      simp only [htr, hb1, hb2, if_false]
      norm_num
      decide
    have hrows : aisleRows "Other"
        [("butter", ⟨"butter", ["A", "B"], 0, 0, 0, [], [], [(u1, 1), (u2, 2)]⟩)] =
        [("butter" ++ "|unknown|" ++ u1, ⟨1, u1, "Other", "butter", ["A", "B"]⟩),
         ("butter" ++ "|unknown|" ++ u2, ⟨2, u2, "Other", "butter", ["A", "B"]⟩)] := by
      simp only [aisleRows, sortByKey, List.foldr_cons, List.foldr_nil, insertByKey,
        List.foldl_cons, List.foldl_nil, emitName, List.map_cons, List.map_nil,
        alSet, hsort, hkne]
      simp [hne1, hne2, alSet, hkne]
    simp only [generateGroceryList, hbuild, List.foldl_cons, List.foldl_nil, hrows, alSet]

/-- Witness for the amended C3 at the units knob and pinch. -/
theorem c3_amended_unknown_merge_witness :
    generateGroceryList
      [⟨1, "A", [⟨"butter", "1", "knob", ""⟩]⟩,
       ⟨2, "B", [⟨"butter", "2", "pinch", ""⟩]⟩] [1, 2] =
    [("Other",
      if ("knob" : String) = "pinch" then
        [("butter" ++ "|unknown|" ++ "knob", ⟨3, "knob", "Other", "butter", ["A", "B"]⟩)]
      else
        [("butter" ++ "|unknown|" ++ "knob", ⟨1, "knob", "Other", "butter", ["A", "B"]⟩),
         ("butter" ++ "|unknown|" ++ "pinch", ⟨2, "pinch", "Other", "butter", ["A", "B"]⟩)])] :=
  c3_amended_unknown_merge "knob" "pinch" (by decide) (by decide)

/-- Claim C4 is refuted here: recipe B contributes only a weight line
for sugar, yet it appears in the sources of the volume row, because the
source set is kept per (aisle, name) and shared by every family row of
that pair. -/
theorem c4_counterexample :
    (getUnitInfo "cup").kind = .volume ∧
    (getUnitInfo "g").kind = .weight ∧
    generateGroceryList
      [⟨1, "A", [⟨"sugar", "1", "cup", ""⟩]⟩,
       ⟨2, "B", [⟨"sugar", "200", "g", ""⟩]⟩] [1, 2] =
    [("Other",
      [("sugar|volume", ⟨1, "cup", "Other", "sugar", ["A", "B"]⟩),
       ("sugar|weight", ⟨141 / 20, "oz", "Other", "sugar", ["A", "B"]⟩)])] ∧
    (["A", "B"] : List String) ≠ ["A"] := by
  decide

/-- Claim C4, amended: every row of every aisle of the output comes from
some bucket (aisle, nk) of the accumulator, and its sources field is the
lexicographically sorted deduplication of the titles of the selected
recipes that contributed at least one ingredient line to that (aisle,
nk) pair — of any family, not only the row's own family. -/
theorem c4_amended_bucket_provenance (rs : List Recipe) (sel : List ℤ)
    (a : String × List (String × DisplayRow))
    (ha : a ∈ generateGroceryList rs sel)
    (q : String × DisplayRow) (hq : q ∈ a.2) :
    ∃ nk : String, ∃ agg : Agg,
      (alGet? a.1 (buildAggMap rs sel)).bind (alGet? nk) = some agg ∧
      q ∈ emitName a.1 nk agg ∧
      q.2.sources =
        sortStrings (dedupKeepFirst (contribTitles rs sel a.1 nk)) := by
  obtain ⟨p, hp, he⟩ := mem_generateGroceryList ha
  obtain ⟨hWF, hinv⟩ := buildAggMap_invariants rs sel
  unfold SourcesInv at hinv
  have ha1 : a.1 = p.1 := by rw [he]
  have ha2 : a.2 = aisleRows p.1 p.2 := by rw [he]
  rw [ha2] at hq
  obtain ⟨b, hb, hqe⟩ := mem_aisleRows hq
  have hlk : (alGet? p.1 (buildAggMap rs sel)).bind (alGet? b.1) = some b.2 := by
    rw [alGet?_eq_some_of_mem hWF.1 hp]
    simp only [Option.some_bind]
    exact alGet?_eq_some_of_mem (hWF.2 p hp).1 hb
  refine ⟨b.1, b.2, ?_, ?_, ?_⟩
  · rw [ha1]
    exact hlk
  · rw [ha1]
    exact hqe
  · rw [emitName_sources hqe, (hinv p.1 b.1).1 b.2 hlk, ha1]
    simp [contribTitles]

theorem c4_amended_bucket_provenance_witness :
    ("Baking",
      [("flour|volume",
        (⟨5 / 2, "cup", "Baking", "flour", ["A", "B"]⟩ : DisplayRow))]) ∈
      generateGroceryList
        [⟨1, "A", [⟨"flour", "2", "cups", "Baking"⟩]⟩,
         ⟨2, "B", [⟨"Flour", "1/2", "cup", "baking"⟩]⟩] [1, 2] ∧
    (∃ nk : String, ∃ agg : Agg,
      (alGet? "Baking"
        (buildAggMap
          [⟨1, "A", [⟨"flour", "2", "cups", "Baking"⟩]⟩,
           ⟨2, "B", [⟨"Flour", "1/2", "cup", "baking"⟩]⟩] [1, 2])).bind
        (alGet? nk) = some agg ∧
      ("flour|volume",
        (⟨5 / 2, "cup", "Baking", "flour", ["A", "B"]⟩ : DisplayRow)) ∈
        emitName "Baking" nk agg ∧
      (⟨5 / 2, "cup", "Baking", "flour", ["A", "B"]⟩ : DisplayRow).sources =
        sortStrings (dedupKeepFirst (contribTitles
          [⟨1, "A", [⟨"flour", "2", "cups", "Baking"⟩]⟩,
           ⟨2, "B", [⟨"Flour", "1/2", "cup", "baking"⟩]⟩] [1, 2] "Baking" nk))) :=
  ⟨by decide,
   c4_amended_bucket_provenance
     [⟨1, "A", [⟨"flour", "2", "cups", "Baking"⟩]⟩,
      ⟨2, "B", [⟨"Flour", "1/2", "cup", "baking"⟩]⟩]
     [1, 2]
     ("Baking",
       [("flour|volume", ⟨5 / 2, "cup", "Baking", "flour", ["A", "B"]⟩)])
     (by decide)
     ("flour|volume", ⟨5 / 2, "cup", "Baking", "flour", ["A", "B"]⟩)
     (by decide)⟩

/-- Claim C7 is refuted here: at a total of 59.147 milliliters with no
preferred unit, the rule of the claim with its rounded threshold picks
cups, while the code, whose threshold is the exact quarter cup
59.147059125, picks tablespoons. -/
theorem c7_counterexample :
    claimVolumeUnit (59147 / 1000) [] = "cup" ∧
    (formatVolumeFromMl (59147 / 1000) []).2 = "tbsp" := by
  decide

/-- Claim C7 amended: the code chooses the display unit by the stated
rule with the exact thresholds, a quarter cup, one tablespoon and one
teaspoon in milliliters, and returns the total converted into the
chosen unit, rounded for display. -/
theorem c7_amended_volume_rule (t : ℚ) (preferred : List String) :
    formatVolumeFromMl t preferred =
      (roundForDisplay (t / specVolumeFactor (specVolumeUnit t preferred)),
       specVolumeUnit t preferred) :=
  formatVolume_eq t preferred

/-- Claim C8 is refuted here: five lines of one cup satisfy the stated
hypotheses, the total is at least the cup threshold and the only
preference is cup itself, yet the code displays 1.18 liters because the
total reaches the liters threshold of 1000 milliliters. -/
theorem c8_counterexample :
    5 * cupMl ≥ cupMl / 4 ∧
    generateGroceryList
      [⟨1, "A", List.replicate 5 ⟨"milk", "1", "cup", "Beverages"⟩⟩] [1] =
    [("Beverages",
      [("milk|volume", ⟨59 / 50, "l", "Beverages", "milk", ["A"]⟩)])] ∧
    (59 / 50 : ℚ) ≠ 5 ∧ ("l" : String) ≠ "cup" := by
  decide

/-- Claim C8 amended: the cup round trip holds as long as the summed
total also stays below the liters threshold, that is for one to four
lines of one cup: the run yields exactly one volume row with quantity N
and unit cup. -/
theorem c8_amended_cup_round_trip (N : ℕ) (h1 : 1 ≤ N) (h2 : N ≤ 4) :
    generateGroceryList
      [⟨1, "A", List.replicate N ⟨"milk", "1", "cup", "Beverages"⟩⟩] [1] =
    [("Beverages",
      [("milk|volume", ⟨(N : ℚ), "cup", "Beverages", "milk", ["A"]⟩)])] := by
  interval_cases N <;> decide

/-- Witness for the amended C8 at three lines. -/
theorem c8_amended_cup_round_trip_witness :
    generateGroceryList
      [⟨1, "A", List.replicate 3 ⟨"milk", "1", "cup", "Beverages"⟩⟩] [1] =
    [("Beverages",
      [("milk|volume", ⟨((3 : ℕ) : ℚ), "cup", "Beverages", "milk", ["A"]⟩)])] :=
  c8_amended_cup_round_trip 3 (by decide) (by decide)

end Recipebook
